import Mathlib

/-
  Verification of baverstockUX/claude-orchestrator against its
  natural-language specification.

  The development shallowly embeds the Python modules relevant to the
  claims under scrutiny:
    * backend/locking/redis_lock.py        (RedisLock: acquire, release, acquire_multiple)
    * backend/queue/redis_queue.py         (RedisQueue: mark_completed and dependent promotion)
    * backend/orchestrator/worker_agent.py (WorkerAgent: file-lock acquisition, result reporting)
    * backend/orchestrator/merge_orchestrator.py (MergeOrchestrator: conflict pre-check, merge flow)
    * backend/orchestrator/dependency_graph.py   (DependencyGraph: validate_acyclic, get_execution_order)
    * backend/quality/lint_checker.py, syntax_validator.py (status computation)

  Conventions used throughout:
    * The Redis key-value store backing locks is a functional association
      list from key strings to owner tokens; uuid4 owner tokens are
      modelled as natural numbers drawn from a fresh counter.
    * Wall-clock time, TTL expiry during a single call, and true
      concurrency are outside the embedding: each modelled operation runs
      in isolation against an explicit store, which is exactly the view
      the source code has between its awaits.
    * Python exceptions become an explicit error type; attribute lookup
      on a Python object is modelled against the literal set of method
      names that the corresponding class defines in the source file.
    * Fields of source classes that no claim touches (timestamps,
      float-typed durations and hour estimates, log strings) are omitted;
      each omission is noted at the structure it concerns.
-/

namespace Orch

/-! ### Association-list helpers

The Redis store, Python dicts and Python sets are embedded as plain
association lists / lists.  These helpers mirror get / set / delete /
append-at-key. -/

def lookupA (l : List (String × α)) (k : String) : Option α :=
  match l.find? (fun p => p.1 = k) with
  | some p => some p.2
  | none => none

def lookupD (l : List (String × α)) (k : String) (d : α) : α :=
  (lookupA l k).getD d

def containsKey (l : List (String × α)) (k : String) : Bool :=
  (lookupA l k).isSome

def setA (l : List (String × α)) (k : String) (v : α) : List (String × α) :=
  match l with
  | [] => [(k, v)]
  | p :: rest => if p.1 = k then (k, v) :: rest else p :: setA rest k v

def eraseA (l : List (String × α)) (k : String) : List (String × α) :=
  match l with
  | [] => []
  | p :: rest => if p.1 = k then rest else p :: eraseA rest k

/-- Append a value to the list stored at key `k` (the key is assumed present). -/
def appendAt (l : List (String × List α)) (k : String) (v : α) : List (String × List α) :=
  l.map (fun p => if p.1 = k then (p.1, p.2 ++ [v]) else p)

theorem lookupA_setA_self (l : List (String × α)) (k : String) (v : α) :
    lookupA (setA l k v) k = some v := by
  induction l with
  | nil => simp [setA, lookupA, List.find?]
  | cons p rest ih =>
    by_cases h : p.1 = k
    · simp [setA, h, lookupA, List.find?]
    · simp only [setA, if_neg h]
      simp only [lookupA, List.find?] at ih ⊢
      simp [h, ih]

theorem lookupA_setA_other (l : List (String × α)) (k k' : String) (v : α)
    (hne : k' ≠ k) : lookupA (setA l k v) k' = lookupA l k' := by
  induction l with
  | nil => simp [setA, lookupA, List.find?, Ne.symm hne]
  | cons p rest ih =>
    by_cases h : p.1 = k
    · simp [setA, h, lookupA, List.find?, Ne.symm hne, h ▸ Ne.symm hne]
    · simp only [setA, if_neg h]
      by_cases h2 : p.1 = k'
      · simp [lookupA, List.find?, h2]
      · simp only [lookupA, List.find?] at ih ⊢
        simp [h2, ih]

theorem lookupA_eraseA_self (l : List (String × α)) (k : String)
    (hnd : (l.map Prod.fst).Nodup) : lookupA (eraseA l k) k = none := by
  induction l with
  | nil => simp [eraseA, lookupA, List.find?]
  | cons p rest ih =>
    simp only [List.map_cons, List.nodup_cons] at hnd
    by_cases h : p.1 = k
    · simp only [eraseA, if_pos h]
      have : ∀ q ∈ rest, ¬ q.1 = k := by
        intro q hq hqk
        exact hnd.1 (h ▸ hqk ▸ List.mem_map_of_mem Prod.fst hq)
      simp only [lookupA]
      rw [List.find?_eq_none.mpr]
      intro q hq
      simpa using this q hq
    · simp only [eraseA, if_neg h, lookupA, List.find?, h]
      simpa [lookupA] using ih hnd.2

theorem lookupA_eraseA_other (l : List (String × α)) (k k' : String)
    (hne : k' ≠ k) : lookupA (eraseA l k) k' = lookupA l k' := by
  induction l with
  | nil => simp [eraseA]
  | cons p rest ih =>
    by_cases h : p.1 = k
    · have hkk : ¬ (k = k') := fun hh => hne hh.symm
      simp [eraseA, h, lookupA, List.find?, hkk]
    · simp only [eraseA, if_neg h]
      by_cases h2 : p.1 = k'
      · simp [lookupA, List.find?, h2]
      · simp only [lookupA, List.find?] at ih ⊢
        simp [h2, ih]

/-! ### Python exceptions

Exceptions raised (or raisable) by the embedded code paths. -/

inductive PyExc where
  | lockTimeoutError (resource : String)
  | attributeError (cls attr : String)
  | typeError (msg : String)
  | lockAcquisitionError (msg : String)
  deriving Repr, DecidableEq

/-- Rendering of `str(e)` for the exceptions above (Python quotes the class
and attribute names; the quotes are immaterial and omitted here). -/
def pyStr : PyExc → String
  | .lockTimeoutError r => "Failed to acquire lock on " ++ r
  | .attributeError cls attr => cls ++ " object has no attribute " ++ attr
  | .typeError m => m
  | .lockAcquisitionError m => m

/-! ### Lock service — backend/locking/redis_lock.py

The Redis store is an association list from key strings to owner tokens;
`uuid.uuid4()` owner tokens are modelled by a fresh-token counter.
`Lock.acquired_at` (wall clock) is omitted. A single `acquire` call is
modelled against a store that does not change underneath it, so the
SET-NX retry loop collapses to: succeed now iff the key is absent,
otherwise exhaust the deadline and raise `LockTimeoutError`. -/

structure Lock where
  resource : String
  lock_id : Nat
  deriving Repr, DecidableEq

abbrev LockStore := List (String × Nat)

def lockKeyFor (resource : String) : String := "lock:" ++ resource

/-- `RedisLock.acquire` (redis_lock.py lines 39-101): SET key lock_id NX EX;
on contention the backoff loop runs out of deadline and raises. Returns
(result, store, next fresh token). -/
def acquire (st : LockStore) (ctr : Nat) (resource : String) :
    Except PyExc Lock × LockStore × Nat :=
  let key := lockKeyFor resource
  if containsKey st key then
    (Except.error (PyExc.lockTimeoutError resource), st, ctr + 1)
  else
    (Except.ok { resource := resource, lock_id := ctr }, setA st key ctr, ctr + 1)

/-- `RedisLock.release` (redis_lock.py lines 103-142): the Lua script
atomically compares the stored owner with the lock's token and deletes
only on match. -/
def release (st : LockStore) (l : Lock) : Bool × LockStore :=
  let key := lockKeyFor l.resource
  match lookupA st key with
  | some owner => if owner = l.lock_id then (true, eraseA st key) else (false, st)
  | none => (false, st)

/-- The rollback loop of `acquire_multiple` (and of the worker lock path):
release every lock in the list, keeping the store. -/
def releaseAll (st : LockStore) (locks : List Lock) : LockStore :=
  locks.foldl (fun s l => (release s l).2) st

/-- Loop body of `RedisLock.acquire_multiple` (redis_lock.py lines 215-251):
acquire each resource in order; on a `LockTimeoutError` release everything
acquired so far and re-raise. `tried` records the resources on which an
acquire attempt was actually made, in order. -/
def acquireMultipleGo :
    LockStore → Nat → List Lock → List String → List String →
    Except PyExc (List Lock) × LockStore × Nat × List String
  | st, ctr, acc, tried, [] => (Except.ok acc, st, ctr, tried)
  | st, ctr, acc, tried, r :: rs =>
    match acquire st ctr r with
    | (Except.ok l, st1, c1) => acquireMultipleGo st1 c1 (acc ++ [l]) (tried ++ [r]) rs
    | (Except.error e, _, c1) => (Except.error e, releaseAll st acc, c1, tried ++ [r])

/-- `RedisLock.acquire_multiple`. -/
def acquireMultiple (st : LockStore) (ctr : Nat) (resources : List String) :
    Except PyExc (List Lock) × LockStore × Nat × List String :=
  acquireMultipleGo st ctr [] [] resources

/-! ### Store well-formedness lemmas (unique keys, as in a real KV store) -/

def keysOf (st : List (String × α)) : List String := st.map Prod.fst

theorem lookupA_eq_none_iff (st : List (String × α)) (k : String) :
    lookupA st k = none ↔ k ∉ keysOf st := by
  unfold lookupA
  cases hf : List.find? (fun p => decide (p.1 = k)) st with
  | none =>
    constructor
    · intro _ hk
      rcases List.mem_map.mp hk with ⟨p, hp, hpk⟩
      have := List.find?_eq_none.mp hf p hp
      simp [hpk] at this
    · intro _
      rfl
  | some q =>
    constructor
    · intro h
      exact absurd h (by simp)
    · intro hk
      have hq := List.find?_some hf
      have hqm := List.mem_of_find?_eq_some hf
      simp only [decide_eq_true_eq] at hq
      exact absurd (List.mem_map.mpr ⟨q, hqm, hq⟩) hk

theorem lookupA_isSome_mem (st : List (String × α)) (k : String) (v : α)
    (h : lookupA st k = some v) : k ∈ keysOf st := by
  by_contra hk
  rw [(lookupA_eq_none_iff st k).mpr hk] at h
  exact Option.noConfusion h

theorem containsKey_false_iff (st : List (String × α)) (k : String) :
    containsKey st k = false ↔ k ∉ keysOf st := by
  cases hl : lookupA st k with
  | none => simp [containsKey, hl, (lookupA_eq_none_iff st k).mp hl]
  | some v => simp [containsKey, hl, lookupA_isSome_mem st k v hl]

theorem keysOf_setA_absent (st : List (String × α)) (k : String) (v : α)
    (h : k ∉ keysOf st) : keysOf (setA st k v) = keysOf st ++ [k] := by
  induction st with
  | nil => simp [setA, keysOf]
  | cons p rest ih =>
    simp only [keysOf, List.map_cons, List.mem_cons, not_or] at h
    have hp : ¬ p.1 = k := fun hh => h.1 hh.symm
    simp only [setA, if_neg hp, keysOf, List.map_cons, List.cons_append]
    rw [show (setA rest k v).map Prod.fst = keysOf (setA rest k v) from rfl, ih h.2]
    rfl

theorem nodup_keys_setA_absent (st : List (String × α)) (k : String) (v : α)
    (hnd : (keysOf st).Nodup) (h : k ∉ keysOf st) :
    (keysOf (setA st k v)).Nodup := by
  rw [keysOf_setA_absent st k v h]
  simpa [List.nodup_append] using ⟨hnd, fun hk => h hk⟩

theorem keysOf_eraseA_sub (st : List (String × α)) (k k2 : String)
    (h : k2 ∈ keysOf (eraseA st k)) : k2 ∈ keysOf st := by
  induction st with
  | nil => simpa [eraseA] using h
  | cons p rest ih =>
    by_cases hp : p.1 = k
    · simp only [eraseA, if_pos hp] at h
      refine List.mem_map.mpr ?_
      rcases List.mem_map.mp h with ⟨q, hq, hqk⟩
      exact ⟨q, List.mem_cons_of_mem p hq, hqk⟩
    · simp only [eraseA, if_neg hp, keysOf, List.map_cons, List.mem_cons] at h ⊢
      rcases h with h | h
      · exact Or.inl h
      · exact Or.inr (ih h)

theorem nodup_keys_eraseA (st : List (String × α)) (k : String)
    (hnd : (keysOf st).Nodup) : (keysOf (eraseA st k)).Nodup := by
  induction st with
  | nil => simp [eraseA, keysOf]
  | cons p rest ih =>
    simp only [keysOf, List.map_cons, List.nodup_cons] at hnd
    by_cases hp : p.1 = k
    · simpa [eraseA, hp, keysOf] using hnd.2
    · simp only [eraseA, if_neg hp, keysOf, List.map_cons, List.nodup_cons]
      exact ⟨fun hm => hnd.1 (keysOf_eraseA_sub rest k p.1 hm), ih hnd.2⟩

/-- Evaluation of `acquire` when the key is already present. -/
theorem acquire_present (st : LockStore) (ctr : Nat) (r : String)
    (h : containsKey st (lockKeyFor r) = true) :
    acquire st ctr r = (Except.error (PyExc.lockTimeoutError r), st, ctr + 1) := by
  simp [acquire, h]

/-- Evaluation of `acquire` when the key is absent. -/
theorem acquire_absent (st : LockStore) (ctr : Nat) (r : String)
    (h : containsKey st (lockKeyFor r) = false) :
    acquire st ctr r =
      (Except.ok { resource := r, lock_id := ctr }, setA st (lockKeyFor r) ctr, ctr + 1) := by
  simp [acquire, h]

/-- Effect of the rollback loop: starting from a store in which every lock
in the list is still live, releasing them all deletes exactly their keys. -/
theorem releaseAll_lookup (acc : List Lock) :
    ∀ st : LockStore, (keysOf st).Nodup →
    (∀ l ∈ acc, lookupA st (lockKeyFor l.resource) = some l.lock_id) →
    (acc.map (fun l => lockKeyFor l.resource)).Nodup →
    ∀ k, lookupA (releaseAll st acc) k =
      if k ∈ acc.map (fun l => lockKeyFor l.resource) then none else lookupA st k := by
  induction acc with
  | nil =>
    intro st _ _ _ k
    simp [releaseAll]
  | cons l acc ih =>
    intro st hnd hlive hknd k
    simp only [List.map_cons, List.nodup_cons] at hknd
    have hl : lookupA st (lockKeyFor l.resource) = some l.lock_id :=
      hlive l (List.mem_cons_self l acc)
    have hstep : releaseAll st (l :: acc) =
        releaseAll (eraseA st (lockKeyFor l.resource)) acc := by
      simp [releaseAll, release, hl]
    rw [hstep]
    have hnd2 : (keysOf (eraseA st (lockKeyFor l.resource))).Nodup :=
      nodup_keys_eraseA st _ hnd
    have hlive2 : ∀ l2 ∈ acc,
        lookupA (eraseA st (lockKeyFor l.resource)) (lockKeyFor l2.resource) =
          some l2.lock_id := by
      intro l2 hl2
      have hne : lockKeyFor l2.resource ≠ lockKeyFor l.resource := by
        intro he
        exact hknd.1 (he ▸ List.mem_map_of_mem (fun l => lockKeyFor l.resource) hl2)
      rw [lookupA_eraseA_other st _ _ hne]
      exact hlive l2 (List.mem_cons_of_mem l hl2)
    rw [ih _ hnd2 hlive2 hknd.2 k]
    by_cases hk1 : k ∈ acc.map (fun l => lockKeyFor l.resource)
    · simp [hk1]
    · by_cases hk2 : k = lockKeyFor l.resource
      · subst hk2
        simp [hk1, lookupA_eraseA_self st _ hnd]
      · simp [hk1, hk2, lookupA_eraseA_other st _ _ hk2]

/-- Success path of the `acquire_multiple` loop: one live lock per listed
resource, attempted in the order given. -/
theorem acquireMultipleGo_ok (rs : List String) :
    ∀ st ctr acc tried locks st2 c2 t2, (keysOf st).Nodup →
    (∀ l ∈ acc, lookupA st (lockKeyFor l.resource) = some l.lock_id) →
    acquireMultipleGo st ctr acc tried rs = (Except.ok locks, st2, c2, t2) →
    locks.map Lock.resource = acc.map Lock.resource ++ rs ∧
    t2 = tried ++ rs ∧ (keysOf st2).Nodup ∧
    (∀ l ∈ locks, lookupA st2 (lockKeyFor l.resource) = some l.lock_id) := by
  induction rs with
  | nil =>
    intro st ctr acc tried locks st2 c2 t2 hnd hlive h
    simp only [acquireMultipleGo, Prod.mk.injEq, Except.ok.injEq] at h
    obtain ⟨h1, h2, _, h4⟩ := h
    subst h1
    subst h2
    subst h4
    simpa using ⟨hnd, hlive⟩
  | cons r rs ih =>
    intro st ctr acc tried locks st2 c2 t2 hnd hlive h
    simp only [acquireMultipleGo] at h
    cases hc : containsKey st (lockKeyFor r) with
    | true =>
      rw [acquire_present st ctr r hc] at h
      simp at h
    | false =>
      rw [acquire_absent st ctr r hc] at h
      simp only [] at h
      have habs : lockKeyFor r ∉ keysOf st := (containsKey_false_iff st _).mp hc
      have hnd1 : (keysOf (setA st (lockKeyFor r) ctr)).Nodup :=
        nodup_keys_setA_absent st _ ctr hnd habs
      have hlive1 : ∀ l ∈ acc ++ [({ resource := r, lock_id := ctr } : Lock)],
          lookupA (setA st (lockKeyFor r) ctr) (lockKeyFor l.resource) =
            some l.lock_id := by
        intro l hl
        rcases List.mem_append.mp hl with hl | hl
        · have hmem := lookupA_isSome_mem st _ _ (hlive l hl)
          have hne : lockKeyFor l.resource ≠ lockKeyFor r := fun he => habs (he ▸ hmem)
          rw [lookupA_setA_other st _ _ ctr hne]
          exact hlive l hl
        · simp only [List.mem_singleton] at hl
          subst hl
          exact lookupA_setA_self st _ ctr
      have hres := ih (setA st (lockKeyFor r) ctr) (ctr + 1)
        (acc ++ [({ resource := r, lock_id := ctr } : Lock)]) (tried ++ [r])
        locks st2 c2 t2 hnd1 hlive1 h
      refine ⟨?_, ?_, hres.2.2.1, hres.2.2.2⟩
      · rw [hres.1]
        simp
      · rw [hres.2.1]
        simp

/-- Failure path of the `acquire_multiple` loop: the store is restored to
its entry state (pointwise), so no listed resource stays held. -/
theorem acquireMultipleGo_err (rs : List String) :
    ∀ st ctr acc tried e st2 c2 t2, (keysOf st).Nodup →
    (∀ l ∈ acc, lookupA st (lockKeyFor l.resource) = some l.lock_id) →
    (acc.map (fun l => lockKeyFor l.resource)).Nodup →
    acquireMultipleGo st ctr acc tried rs = (Except.error e, st2, c2, t2) →
    (∃ r, e = PyExc.lockTimeoutError r ∧ r ∈ rs) ∧
    (∃ kk, t2 = tried ++ rs.take kk) ∧
    ∀ k, lookupA st2 k =
      if k ∈ acc.map (fun l => lockKeyFor l.resource) then none else lookupA st k := by
  induction rs with
  | nil =>
    intro st ctr acc tried e st2 c2 t2 _ _ _ h
    simp [acquireMultipleGo] at h
  | cons r rs ih =>
    intro st ctr acc tried e st2 c2 t2 hnd hlive hknd h
    simp only [acquireMultipleGo] at h
    cases hc : containsKey st (lockKeyFor r) with
    | true =>
      rw [acquire_present st ctr r hc] at h
      simp only [Prod.mk.injEq, Except.error.injEq] at h
      obtain ⟨h1, h2, _, h4⟩ := h
      refine ⟨⟨r, h1.symm, List.mem_cons_self r rs⟩, ⟨1, by simpa using h4.symm⟩, ?_⟩
      intro k
      rw [← h2]
      exact releaseAll_lookup acc st hnd hlive hknd k
    | false =>
      rw [acquire_absent st ctr r hc] at h
      simp only [] at h
      have habs : lockKeyFor r ∉ keysOf st := (containsKey_false_iff st _).mp hc
      have hnd1 : (keysOf (setA st (lockKeyFor r) ctr)).Nodup :=
        nodup_keys_setA_absent st _ ctr hnd habs
      have hlive1 : ∀ l ∈ acc ++ [({ resource := r, lock_id := ctr } : Lock)],
          lookupA (setA st (lockKeyFor r) ctr) (lockKeyFor l.resource) =
            some l.lock_id := by
        intro l hl
        rcases List.mem_append.mp hl with hl | hl
        · have hmem := lookupA_isSome_mem st _ _ (hlive l hl)
          have hne : lockKeyFor l.resource ≠ lockKeyFor r := fun he => habs (he ▸ hmem)
          rw [lookupA_setA_other st _ _ ctr hne]
          exact hlive l hl
        · simp only [List.mem_singleton] at hl
          subst hl
          exact lookupA_setA_self st _ ctr
      have hknd1 :
          ((acc ++ [({ resource := r, lock_id := ctr } : Lock)]).map
            (fun l => lockKeyFor l.resource)).Nodup := by
        simp only [List.map_append, List.map_cons, List.map_nil]
        rw [List.nodup_append]
        refine ⟨hknd, List.nodup_singleton _, ?_⟩
        intro x hx
        have hxk : x ∈ keysOf st := by
          rcases List.mem_map.mp hx with ⟨l, hl, hlx⟩
          exact hlx ▸ lookupA_isSome_mem st _ _ (hlive l hl)
        simp only [List.mem_singleton]
        intro hxr
        exact habs (hxr ▸ hxk)
      have hres := ih (setA st (lockKeyFor r) ctr) (ctr + 1)
        (acc ++ [({ resource := r, lock_id := ctr } : Lock)]) (tried ++ [r])
        e st2 c2 t2 hnd1 hlive1 hknd1 h
      refine ⟨?_, ?_, ?_⟩
      · rcases hres.1 with ⟨r2, he, hr2⟩
        exact ⟨r2, he, List.mem_cons_of_mem r hr2⟩
      · rcases hres.2.1 with ⟨kk, ht⟩
        exact ⟨kk + 1, by simpa using ht⟩
      · intro k
        rw [hres.2.2 k]
        by_cases hk1 : k ∈ (acc ++ [({ resource := r, lock_id := ctr } : Lock)]).map
            (fun l => lockKeyFor l.resource)
        · simp only [List.map_append, List.map_cons, List.map_nil,
            List.mem_append, List.mem_singleton] at hk1
          rcases hk1 with hk1 | hk1
          · simp [hk1]
          · subst hk1
            have hnm : lockKeyFor r ∉ acc.map (fun l => lockKeyFor l.resource) := by
              intro hm
              rcases List.mem_map.mp hm with ⟨l, hl, hlx⟩
              exact habs (hlx ▸ lookupA_isSome_mem st _ _ (hlive l hl))
            rw [if_neg hnm, if_pos (by simp)]
            exact ((lookupA_eq_none_iff st _).mpr habs).symm
        · have hk2 : k ∉ acc.map (fun l => lockKeyFor l.resource) := by
            intro hm
            refine hk1 ?_
            simp only [List.map_append]
            exact List.mem_append_left _ hm
          have hk3 : k ≠ lockKeyFor r := by
            intro he
            refine hk1 ?_
            simp [he]
          rw [if_neg hk1, if_neg hk2]
          exact lookupA_setA_other st _ _ ctr hk3

/-! ### Claims C3 and C4 -/

/-- Claim C4: `release(lock)` returns true if and only if the store's value at
key `lock:<resource>` equals the lock's owner token at the moment of the atomic
compare, in which case the record is deleted; in every other case (record
absent or held by a different owner) it returns false and leaves the stored
record unchanged — the stale-owner case is surfaced as false, never treated as
success. -/
theorem C4_release_iff_owner (st : LockStore) (l : Lock)
    (hnd : (keysOf st).Nodup) :
    ((release st l).1 = true ↔ lookupA st (lockKeyFor l.resource) = some l.lock_id)
    ∧ (release st l).2 =
        (if lookupA st (lockKeyFor l.resource) = some l.lock_id
         then eraseA st (lockKeyFor l.resource) else st)
    ∧ ((release st l).1 = true →
        lookupA (release st l).2 (lockKeyFor l.resource) = none) := by
  cases hl : lookupA st (lockKeyFor l.resource) with
  | none =>
    refine ⟨?_, ?_, ?_⟩
    · simp [release, hl]
    · simp [release, hl]
    · intro hb
      simp [release, hl] at hb
  | some owner =>
    by_cases ho : owner = l.lock_id
    · subst ho
      refine ⟨?_, ?_, ?_⟩
      · simp [release, hl]
      · simp [release, hl]
      · intro _
        have : (release st l).2 = eraseA st (lockKeyFor l.resource) := by
          simp [release, hl]
        rw [this]
        exact lookupA_eraseA_self st _ hnd
    · refine ⟨?_, ?_, ?_⟩
      · simp [release, hl, ho]
      · simp [release, hl, ho]
      · intro hb
        simp [release, hl, ho] at hb

/-- Witness for C4 at a concrete store: the matching owner releases (and the
record disappears); a stale owner token gets false. -/
theorem C4_release_iff_owner_witness :
    (release [("lock:README.md", 7)] { resource := "README.md", lock_id := 7 }).1 = true
    ∧ (release [("lock:README.md", 7)] { resource := "README.md", lock_id := 9 }).1 = false := by
  have h1 := C4_release_iff_owner [("lock:README.md", 7)]
    { resource := "README.md", lock_id := 7 } (by decide)
  have h2 := C4_release_iff_owner [("lock:README.md", 7)]
    { resource := "README.md", lock_id := 9 } (by decide)
  refine ⟨h1.1.mpr (by decide), ?_⟩
  refine Bool.eq_false_iff.mpr (fun hb => ?_)
  have hmatch := h2.1.mp hb
  have : ¬ (lookupA [("lock:README.md", 7)] (lockKeyFor "README.md") = some 9) := by
    decide
  exact this hmatch

/-- Claim C3: `acquire_multiple(resources, ttl)` is all-or-nothing: it attempts
acquisition in the order given, and for every input list it either returns one
live lock per listed resource or, when any single acquisition fails, releases
every lock it already acquired for this call and fails with LockTimeout,
leaving no resource in the list held by this caller (the store is pointwise
exactly the entry store). -/
theorem C3_acquire_multiple_all_or_nothing (st : LockStore) (ctr : Nat)
    (resources : List String) (hnd : (keysOf st).Nodup) :
    (∀ locks st2 c2 t2,
        acquireMultiple st ctr resources = (Except.ok locks, st2, c2, t2) →
        locks.map Lock.resource = resources ∧ t2 = resources ∧
        ∀ l ∈ locks, lookupA st2 (lockKeyFor l.resource) = some l.lock_id)
    ∧ (∀ e st2 c2 t2,
        acquireMultiple st ctr resources = (Except.error e, st2, c2, t2) →
        (∃ r, e = PyExc.lockTimeoutError r ∧ r ∈ resources) ∧
        (∃ kk, t2 = resources.take kk) ∧
        ∀ k, lookupA st2 k = lookupA st k) := by
  constructor
  · intro locks st2 c2 t2 h
    have hres := acquireMultipleGo_ok resources st ctr [] [] locks st2 c2 t2 hnd
      (by simp) h
    exact ⟨by simpa using hres.1, by simpa using hres.2.1, hres.2.2.2⟩
  · intro e st2 c2 t2 h
    have hres := acquireMultipleGo_err resources st ctr [] [] e st2 c2 t2 hnd
      (by simp) (by simp) h
    refine ⟨hres.1, ?_, ?_⟩
    · rcases hres.2.1 with ⟨kk, ht⟩
      exact ⟨kk, by simpa using ht⟩
    · intro k
      simpa using hres.2.2 k

/-- Witness for C3 at a concrete run: acquiring two free resources yields one
live lock per resource, in order. -/
theorem C3_acquire_multiple_all_or_nothing_witness :
    ([{ resource := "a", lock_id := 0 }, { resource := "b", lock_id := 1 }] :
        List Lock).map Lock.resource = ["a", "b"]
    ∧ lookupA [("lock:a", 0), ("lock:b", 1)] (lockKeyFor "a") = some 0 := by
  have h := (C3_acquire_multiple_all_or_nothing [] 0 ["a", "b"] (by decide)).1
    [{ resource := "a", lock_id := 0 }, { resource := "b", lock_id := 1 }]
    [("lock:a", 0), ("lock:b", 1)] 2 ["a", "b"] rfl
  exact ⟨h.1, h.2.2 { resource := "a", lock_id := 0 } (by decide)⟩

/-! ### Task queue — backend/queue/redis_queue.py

The queue's durable state lives in the same kind of KV store: per-task
status strings, per-task metadata hashes, per-task remaining-dependency
sets, the global pending set and the per-specialty FIFO lists.  Redis sets
are embedded as lists (`smembers` iterates our list order; the claims
proved below are insensitive to that order).  `Task.estimated_hours`
(float), `created_at` and `project_id` are omitted;
`TaskResult.execution_time_seconds` (float) is omitted, as is the
`completed_at` timestamp written next to the stored result. -/

structure Task where
  id : String
  title : String
  description : String
  agent_type : String
  files_to_create : List String
  files_to_modify : List String
  dependencies : List String
  deriving Repr, DecidableEq

structure TaskResult where
  task_id : String
  success : Bool
  commit_sha : Option String
  files_changed : List String
  error_message : Option String
  deriving Repr, DecidableEq

def statusKey (id : String) : String := "task:" ++ id ++ ":status"

def taskKey (id : String) : String := "task:" ++ id

def depsKey (id : String) : String := "task:dependencies:" ++ id

def queueKey (agentType : String) : String := "task:queue:" ++ agentType

structure QueueState where
  status : List (String × String)
  taskData : List (String × Task)
  storedResults : List (String × TaskResult)
  deps : List (String × List String)
  pending : List String
  queues : List (String × List String)
  deriving Repr, DecidableEq

/-- One iteration of the loop in `RedisQueue._check_and_enqueue_dependents`
(redis_queue.py lines 199-226) for pending member `task_id`: if it lists the
completed id, SREM the edge; if the remaining-deps set becomes empty, SREM it
from the pending set, fetch its metadata and LPUSH it onto its specialty
queue. -/
def promoteStep (completed : String) (s : QueueState) (task_id : String) : QueueState :=
  let depList := lookupD s.deps (depsKey task_id) []
  if completed ∈ depList then
    let newDeps := depList.filter (fun d => d ≠ completed)
    let s1 : QueueState := { s with deps := setA s.deps (depsKey task_id) newDeps }
    if newDeps.length = 0 then
      let s2 : QueueState := { s1 with pending := s1.pending.filter (fun p => p ≠ task_id) }
      match lookupA s2.taskData (taskKey task_id) with
      | some t =>
        let qk := queueKey t.agent_type
        let newQ := setA s2.queues qk (task_id :: lookupD s2.queues qk [])
        { s2 with queues := newQ }
      | none => s2
    else s1
  else s

/-- `RedisQueue._check_and_enqueue_dependents` (redis_queue.py lines 189-226):
snapshot the pending set and run the promotion step over it. -/
def checkAndEnqueueDependents (s : QueueState) (completed : String) : QueueState :=
  s.pending.foldl (promoteStep completed) s

/-- `RedisQueue.mark_completed` (redis_queue.py lines 158-187): set terminal
status, store the result, and promote dependents only on success. -/
def markCompleted (s : QueueState) (task_id : String) (result : TaskResult) : QueueState :=
  let statusStr := if result.success then "completed" else "failed"
  let s1 : QueueState := { s with
    status := setA s.status (statusKey task_id) statusStr,
    storedResults := setA s.storedResults (taskKey task_id) result }
  if result.success then checkAndEnqueueDependents s1 task_id else s1

/-- Number of occurrences of `x` on the specialty queue of `atype`. -/
def queueCount (s : QueueState) (atype x : String) : Nat :=
  (lookupD s.queues (queueKey atype) []).count x

theorem string_append_right_inj (a b c : String) (h : a ++ b = a ++ c) : b = c := by
  have hd := congrArg String.data h
  simp only [String.data_append] at hd
  have hbc := List.append_cancel_left hd
  cases b
  cases c
  exact congrArg String.mk hbc

theorem depsKey_inj (d1 d2 : String) (h : depsKey d1 = depsKey d2) : d1 = d2 :=
  string_append_right_inj "task:dependencies:" d1 d2 h

theorem queueKey_inj (a1 a2 : String) (h : queueKey a1 = queueKey a2) : a1 = a2 :=
  string_append_right_inj "task:queue:" a1 a2 h

/-- General form of the setA lookup lemmas. -/
theorem lookupA_setA (l : List (String × α)) (k k2 : String) (v : α) :
    lookupA (setA l k v) k2 = if k2 = k then some v else lookupA l k2 := by
  by_cases h : k2 = k
  · subst h
    simp [lookupA_setA_self]
  · simp [h, lookupA_setA_other l k k2 v h]

theorem promoteStep_taskData (c : String) (s : QueueState) (i : String) :
    (promoteStep c s i).taskData = s.taskData := by
  simp only [promoteStep]
  split
  · split
    · split
      · rfl
      · rfl
    · rfl
  · rfl

/-- A promotion-step iteration for a pending member `i` different from `d`
does not disturb the observables of `d`: its remaining-deps record, its
pending-set membership and its multiplicity on every specialty queue. -/
theorem promoteStep_other (c : String) (s : QueueState) (i d : String) (hne : i ≠ d) :
    lookupA (promoteStep c s i).deps (depsKey d) = lookupA s.deps (depsKey d)
    ∧ (d ∈ (promoteStep c s i).pending ↔ d ∈ s.pending)
    ∧ ∀ at2, queueCount (promoteStep c s i) at2 d = queueCount s at2 d := by
  have hdk : depsKey d ≠ depsKey i := fun h => hne (depsKey_inj d i h).symm
  simp only [promoteStep]
  split
  · split
    · split
      · next t _ =>
        refine ⟨?_, ?_, ?_⟩
        · simp only [lookupA_setA, if_neg hdk]
        · simp only [List.mem_filter]
          constructor
          · intro h
            exact h.1
          · intro h
            exact ⟨h, by simp [Ne.symm hne]⟩
        · intro at2
          simp only [queueCount, lookupD, lookupA_setA]
          by_cases hq : queueKey at2 = queueKey (t.agent_type)
          · rw [if_pos hq, hq]
            simp [List.count_cons, Ne.symm hne]
          · rw [if_neg hq]
      · refine ⟨?_, ?_, ?_⟩
        · simp only [lookupA_setA, if_neg hdk]
        · simp only [List.mem_filter]
          constructor
          · intro h
            exact h.1
          · intro h
            exact ⟨h, by simp [Ne.symm hne]⟩
        · intro at2
          simp only [queueCount]
    · refine ⟨?_, Iff.rfl, fun at2 => rfl⟩
      simp only [lookupA_setA, if_neg hdk]
  · exact ⟨rfl, Iff.rfl, fun at2 => rfl⟩

/-- Folding the promotion step over a list that does not contain `d` leaves
the observables of `d` unchanged (and never touches task metadata). -/
theorem foldl_promote_not_mem (c d : String) (L : List String) :
    ∀ s : QueueState, d ∉ L →
    lookupA (L.foldl (promoteStep c) s).deps (depsKey d) = lookupA s.deps (depsKey d)
    ∧ (d ∈ (L.foldl (promoteStep c) s).pending ↔ d ∈ s.pending)
    ∧ (∀ at2, queueCount (L.foldl (promoteStep c) s) at2 d = queueCount s at2 d)
    ∧ (L.foldl (promoteStep c) s).taskData = s.taskData := by
  induction L with
  | nil =>
    intro s _
    exact ⟨rfl, Iff.rfl, fun _ => rfl, rfl⟩
  | cons i L ih =>
    intro s hd
    have hne : i ≠ d := fun h => hd (h ▸ List.mem_cons_self i L)
    have hdL : d ∉ L := fun h => hd (List.mem_cons_of_mem i h)
    have hstep := promoteStep_other c s i d hne
    have hrest := ih (promoteStep c s i) hdL
    refine ⟨?_, ?_, ?_, ?_⟩
    · rw [List.foldl_cons, hrest.1, hstep.1]
    · rw [List.foldl_cons]
      exact hrest.2.1.trans hstep.2.1
    · intro at2
      rw [List.foldl_cons, hrest.2.2.1 at2, hstep.2.2 at2]
    · rw [List.foldl_cons, hrest.2.2.2, promoteStep_taskData]

/-- The promotion step for `d` itself when removing the completed id empties
the remaining-deps set: `d` leaves the pending set, its deps record becomes
empty, and it is pushed once onto the specialty queue of its stored task
metadata (all other queues untouched). -/
theorem promoteStep_self_empty (c d : String) (s : QueueState) (t : Task)
    (hc : c ∈ lookupD s.deps (depsKey d) [])
    (hf : (lookupD s.deps (depsKey d) []).filter (fun x => x ≠ c) = [])
    (ht : lookupA s.taskData (taskKey d) = some t) :
    d ∉ (promoteStep c s d).pending ∧
    lookupA (promoteStep c s d).deps (depsKey d) = some [] ∧
    queueCount (promoteStep c s d) t.agent_type d = queueCount s t.agent_type d + 1 ∧
    (∀ at2, at2 ≠ t.agent_type →
      queueCount (promoteStep c s d) at2 d = queueCount s at2 d) ∧
    (promoteStep c s d).taskData = s.taskData := by
  have hlen : ((lookupD s.deps (depsKey d) []).filter (fun x => x ≠ c)).length = 0 := by
    rw [hf]
    rfl
  have hstep : promoteStep c s d = { s with
      deps := setA s.deps (depsKey d)
        ((lookupD s.deps (depsKey d) []).filter (fun x => x ≠ c)),
      pending := s.pending.filter (fun p => p ≠ d),
      queues := setA s.queues (queueKey t.agent_type)
        (d :: lookupD s.queues (queueKey t.agent_type) []) } := by
    simp only [promoteStep, if_pos hc, if_pos hlen, ht]
  rw [hstep]
  refine ⟨?_, ?_, ?_, ?_, rfl⟩
  · intro hmem
    rcases List.mem_filter.mp hmem with ⟨_, hx⟩
    simp at hx
  · show lookupA (setA s.deps (depsKey d) _) (depsKey d) = some []
    rw [lookupA_setA, if_pos rfl, hf]
  · show (lookupD (setA s.queues (queueKey t.agent_type)
        (d :: lookupD s.queues (queueKey t.agent_type) [])) (queueKey t.agent_type) []).count d
      = (lookupD s.queues (queueKey t.agent_type) []).count d + 1
    simp only [lookupD, lookupA_setA, if_pos rfl, Option.getD_some]
    exact List.count_cons_self d _
  · intro at2 hat
    have hqk : queueKey at2 ≠ queueKey t.agent_type :=
      fun h => hat (queueKey_inj at2 t.agent_type h)
    show (lookupD (setA s.queues (queueKey t.agent_type)
        (d :: lookupD s.queues (queueKey t.agent_type) [])) (queueKey at2) []).count d
      = (lookupD s.queues (queueKey at2) []).count d
    simp only [lookupD, lookupA_setA, if_neg hqk]

/-- The promotion step for `d` itself when other prerequisites remain: the
edge is removed, `d` stays pending, and no queue changes. -/
theorem promoteStep_self_nonempty (c d : String) (s : QueueState)
    (hc : c ∈ lookupD s.deps (depsKey d) [])
    (hf : (lookupD s.deps (depsKey d) []).filter (fun x => x ≠ c) ≠ []) :
    (d ∈ (promoteStep c s d).pending ↔ d ∈ s.pending) ∧
    lookupA (promoteStep c s d).deps (depsKey d)
      = some ((lookupD s.deps (depsKey d) []).filter (fun x => x ≠ c)) ∧
    (∀ at2, queueCount (promoteStep c s d) at2 d = queueCount s at2 d) ∧
    (promoteStep c s d).taskData = s.taskData := by
  have hlen : ¬ ((lookupD s.deps (depsKey d) []).filter (fun x => x ≠ c)).length = 0 := by
    intro h
    exact hf (List.length_eq_zero.mp h)
  have hstep : promoteStep c s d = { s with
      deps := setA s.deps (depsKey d)
        ((lookupD s.deps (depsKey d) []).filter (fun x => x ≠ c)) } := by
    simp only [promoteStep, if_pos hc, if_neg hlen]
  rw [hstep]
  refine ⟨Iff.rfl, ?_, fun at2 => rfl, rfl⟩
  show lookupA (setA s.deps (depsKey d) _) (depsKey d) = some _
  rw [lookupA_setA, if_pos rfl]

/-- The promotion step for a pending member that does not list the completed
id does nothing. -/
theorem promoteStep_self_skip (c d : String) (s : QueueState)
    (hc : c ∉ lookupD s.deps (depsKey d) []) : promoteStep c s d = s := by
  simp only [promoteStep, if_neg hc]

/-- Combined effect on `d` of running the promotion fold over a duplicate-free
snapshot containing `d`. -/
theorem foldl_promote_mem (c d : String) (L : List String) (s : QueueState)
    (hnd : L.Nodup) (hd : d ∈ L) :
    ((c ∈ lookupD s.deps (depsKey d) [] ∧
        (lookupD s.deps (depsKey d) []).filter (fun x => x ≠ c) = [] →
      d ∉ (L.foldl (promoteStep c) s).pending ∧
      lookupA (L.foldl (promoteStep c) s).deps (depsKey d) = some [] ∧
      ∀ t, lookupA s.taskData (taskKey d) = some t →
        queueCount (L.foldl (promoteStep c) s) t.agent_type d
          = queueCount s t.agent_type d + 1 ∧
        ∀ at2, at2 ≠ t.agent_type →
          queueCount (L.foldl (promoteStep c) s) at2 d = queueCount s at2 d)
    ∧ (c ∈ lookupD s.deps (depsKey d) [] ∧
        (lookupD s.deps (depsKey d) []).filter (fun x => x ≠ c) ≠ [] →
      (d ∈ (L.foldl (promoteStep c) s).pending ↔ d ∈ s.pending) ∧
      lookupA (L.foldl (promoteStep c) s).deps (depsKey d)
        = some ((lookupD s.deps (depsKey d) []).filter (fun x => x ≠ c)) ∧
      ∀ at2, queueCount (L.foldl (promoteStep c) s) at2 d = queueCount s at2 d)
    ∧ (c ∉ lookupD s.deps (depsKey d) [] →
      (d ∈ (L.foldl (promoteStep c) s).pending ↔ d ∈ s.pending) ∧
      lookupA (L.foldl (promoteStep c) s).deps (depsKey d) = lookupA s.deps (depsKey d) ∧
      ∀ at2, queueCount (L.foldl (promoteStep c) s) at2 d = queueCount s at2 d)) := by
  obtain ⟨L1, L2, hL⟩ := List.append_of_mem hd
  subst hL
  have hsplit := List.nodup_append.mp hnd
  have h1 : d ∉ L1 := fun hmem => (hsplit.2.2 hmem) (List.mem_cons_self d L2)
  have h2 : d ∉ L2 := (List.nodup_cons.mp hsplit.2.1).1
  rw [List.foldl_append, List.foldl_cons]
  have hA := foldl_promote_not_mem c d L1 s h1
  have hdlA : lookupD (L1.foldl (promoteStep c) s).deps (depsKey d) []
      = lookupD s.deps (depsKey d) [] := by
    simp only [lookupD, hA.1]
  refine ⟨?_, ?_, ?_⟩
  · rintro ⟨hc, hf⟩
    have hcA : c ∈ lookupD (L1.foldl (promoteStep c) s).deps (depsKey d) [] := by
      rw [hdlA]
      exact hc
    have hfA : (lookupD (L1.foldl (promoteStep c) s).deps (depsKey d) []).filter
        (fun x => x ≠ c) = [] := by
      rw [hdlA]
      exact hf
    refine ⟨?_, ?_, ?_⟩
    · have hB := foldl_promote_not_mem c d L2
        (promoteStep c (L1.foldl (promoteStep c) s) d) h2
      intro hmem
      have hmem2 := hB.2.1.mp hmem
      -- d is filtered out of pending by its own step
      have : d ∉ (promoteStep c (L1.foldl (promoteStep c) s) d).pending := by
        rcases hdata : lookupA (L1.foldl (promoteStep c) s).taskData (taskKey d) with _ | t
        · have hlenA : ((lookupD (L1.foldl (promoteStep c) s).deps (depsKey d) []).filter
              (fun x => x ≠ c)).length = 0 := by
            rw [hfA]
            rfl
          simp only [promoteStep, if_pos hcA, if_pos hlenA, hdata]
          intro hp
          rcases List.mem_filter.mp hp with ⟨_, hx⟩
          simp at hx
        · have := promoteStep_self_empty c d (L1.foldl (promoteStep c) s) t hcA hfA hdata
          exact this.1
      exact this hmem2
    · have hB := foldl_promote_not_mem c d L2
        (promoteStep c (L1.foldl (promoteStep c) s) d) h2
      rw [hB.1]
      rcases hdata : lookupA (L1.foldl (promoteStep c) s).taskData (taskKey d) with _ | t
      · have hlenA : ((lookupD (L1.foldl (promoteStep c) s).deps (depsKey d) []).filter
            (fun x => x ≠ c)).length = 0 := by
          rw [hfA]
          rfl
        simp only [promoteStep, if_pos hcA, if_pos hlenA, hdata]
        rw [lookupA_setA, if_pos rfl, hfA]
      · exact (promoteStep_self_empty c d (L1.foldl (promoteStep c) s) t hcA hfA hdata).2.1
    · intro t ht
      have htA : lookupA (L1.foldl (promoteStep c) s).taskData (taskKey d) = some t := by
        rw [hA.2.2.2]
        exact ht
      have hself := promoteStep_self_empty c d (L1.foldl (promoteStep c) s) t hcA hfA htA
      have hB := foldl_promote_not_mem c d L2
        (promoteStep c (L1.foldl (promoteStep c) s) d) h2
      constructor
      · rw [hB.2.2.1, hself.2.2.1, hA.2.2.1]
      · intro at2 hat
        rw [hB.2.2.1, hself.2.2.2.1 at2 hat, hA.2.2.1]
  · rintro ⟨hc, hf⟩
    have hcA : c ∈ lookupD (L1.foldl (promoteStep c) s).deps (depsKey d) [] := by
      rw [hdlA]
      exact hc
    have hfA : (lookupD (L1.foldl (promoteStep c) s).deps (depsKey d) []).filter
        (fun x => x ≠ c) ≠ [] := by
      rw [hdlA]
      exact hf
    have hself := promoteStep_self_nonempty c d (L1.foldl (promoteStep c) s) hcA hfA
    have hB := foldl_promote_not_mem c d L2
      (promoteStep c (L1.foldl (promoteStep c) s) d) h2
    refine ⟨?_, ?_, ?_⟩
    · exact (hB.2.1.trans hself.1).trans hA.2.1
    · rw [hB.1, hself.2.1, hdlA]
    · intro at2
      rw [hB.2.2.1, hself.2.2.1 at2, hA.2.2.1]
  · intro hc
    have hcA : c ∉ lookupD (L1.foldl (promoteStep c) s).deps (depsKey d) [] := by
      rw [hdlA]
      exact hc
    have hself := promoteStep_self_skip c d (L1.foldl (promoteStep c) s) hcA
    have hB := foldl_promote_not_mem c d L2
      (promoteStep c (L1.foldl (promoteStep c) s) d) h2
    refine ⟨?_, ?_, ?_⟩
    · rw [hself] at hB ⊢
      exact hB.2.1.trans hA.2.1
    · rw [hself] at hB ⊢
      rw [hB.1, hA.1]
    · intro at2
      rw [hself] at hB ⊢
      rw [hB.2.2.1, hA.2.2.1]

/-- Claim C5: when a task T is marked completed with a successful result, the
queue iterates the pending set and, for every pending task that lists T as a
remaining prerequisite, removes that edge; each such task whose
remaining-prerequisites set thereby becomes empty is removed from the pending
set and pushed exactly once onto its specialty queue, while every pending task
with some other unmet prerequisite stays in the pending set and is not
enqueued.  Marking T with an unsuccessful result enqueues no dependent. -/
theorem C5_promotion (s : QueueState) (T : String) (result : TaskResult)
    (hnd : s.pending.Nodup)
    (_hdata : ∀ d ∈ s.pending, (lookupA s.taskData (taskKey d)).isSome) :
    (result.success = true → ∀ d ∈ s.pending,
      ((T ∈ lookupD s.deps (depsKey d) [] ∧
          (lookupD s.deps (depsKey d) []).filter (fun x => x ≠ T) = [] →
        d ∉ (markCompleted s T result).pending ∧
        lookupA (markCompleted s T result).deps (depsKey d) = some [] ∧
        ∀ t, lookupA s.taskData (taskKey d) = some t →
          queueCount (markCompleted s T result) t.agent_type d
            = queueCount s t.agent_type d + 1 ∧
          ∀ at2, at2 ≠ t.agent_type →
            queueCount (markCompleted s T result) at2 d = queueCount s at2 d)
      ∧ (T ∈ lookupD s.deps (depsKey d) [] ∧
          (lookupD s.deps (depsKey d) []).filter (fun x => x ≠ T) ≠ [] →
        d ∈ (markCompleted s T result).pending ∧
        lookupA (markCompleted s T result).deps (depsKey d)
          = some ((lookupD s.deps (depsKey d) []).filter (fun x => x ≠ T)) ∧
        ∀ at2, queueCount (markCompleted s T result) at2 d = queueCount s at2 d)
      ∧ (T ∉ lookupD s.deps (depsKey d) [] →
        d ∈ (markCompleted s T result).pending ∧
        lookupA (markCompleted s T result).deps (depsKey d) = lookupA s.deps (depsKey d) ∧
        ∀ at2, queueCount (markCompleted s T result) at2 d = queueCount s at2 d)))
    ∧ (result.success = false →
        (markCompleted s T result).pending = s.pending ∧
        (markCompleted s T result).queues = s.queues ∧
        (markCompleted s T result).deps = s.deps) := by
  constructor
  · intro hsucc d hd
    have hmc : markCompleted s T result
        = s.pending.foldl (promoteStep T)
            { s with status := setA s.status (statusKey T) "completed",
                     storedResults := setA s.storedResults (taskKey T) result } := by
      simp [markCompleted, hsucc, checkAndEnqueueDependents]
    rw [hmc]
    have hlem := foldl_promote_mem T d s.pending
      { s with status := setA s.status (statusKey T) "completed",
               storedResults := setA s.storedResults (taskKey T) result } hnd hd
    dsimp only [queueCount, lookupD] at hlem ⊢
    refine ⟨hlem.1, ?_, ?_⟩
    · intro hcase
      obtain ⟨hp, hdep, hq⟩ := hlem.2.1 hcase
      exact ⟨hp.mpr hd, hdep, hq⟩
    · intro hcase
      obtain ⟨hp, hdep, hq⟩ := hlem.2.2 hcase
      exact ⟨hp.mpr hd, hdep, hq⟩
  · intro hfail
    have hmc : markCompleted s T result
        = { s with status := setA s.status (statusKey T) "failed",
                   storedResults := setA s.storedResults (taskKey T) result } := by
      simp [markCompleted, hfail]
    rw [hmc]
    exact ⟨rfl, rfl, rfl⟩

/-- Concrete pending task with T as its only prerequisite. -/
def c5Task2 : Task :=
  { id := "t2", title := "build api", description := "", agent_type := "backend",
    files_to_create := [], files_to_modify := [], dependencies := ["t1"] }

/-- Concrete pending task with one further unmet prerequisite. -/
def c5Task3 : Task :=
  { id := "t3", title := "write docs", description := "", agent_type := "docs",
    files_to_create := [], files_to_modify := [], dependencies := ["t1", "tX"] }

/-- Concrete queue state with two pending dependents of t1. -/
def c5State : QueueState :=
  { status := [], taskData := [(taskKey "t2", c5Task2), (taskKey "t3", c5Task3)],
    storedResults := [],
    deps := [(depsKey "t2", ["t1"]), (depsKey "t3", ["t1", "tX"])],
    pending := ["t2", "t3"], queues := [] }

/-- Concrete successful result for t1. -/
def c5Result : TaskResult :=
  { task_id := "t1", success := true, commit_sha := some "abc123",
    files_changed := [], error_message := none }

/-- Witness for C5: completing t1 pushes t2 once onto the backend queue and
out of pending, while t3 (still waiting on tX) stays pending with the edge
removed. -/
theorem C5_promotion_witness :
    queueCount (markCompleted c5State "t1" c5Result) "backend" "t2"
      = queueCount c5State "backend" "t2" + 1
    ∧ "t2" ∉ (markCompleted c5State "t1" c5Result).pending
    ∧ "t3" ∈ (markCompleted c5State "t1" c5Result).pending
    ∧ lookupA (markCompleted c5State "t1" c5Result).deps (depsKey "t3") = some ["tX"] := by
  have hmain := C5_promotion c5State "t1" c5Result (by decide) (by decide)
  have h2 := (hmain.1 rfl "t2" (by decide)).1 ⟨by decide, by decide⟩
  have h3 := (hmain.1 rfl "t3" (by decide)).2.1 ⟨by decide, by decide⟩
  refine ⟨?_, h2.1, ?_, ?_⟩
  · exact (h2.2.2 c5Task2 (by decide)).1
  · exact h3.1
  · have := h3.2.1
    simpa using this

/-! ### Worker agent — backend/orchestrator/worker_agent.py

`AgentConfig.project_path` (a filesystem path) and `heartbeat_interval` are
omitted; neither is read by the embedded code paths. -/

structure AgentConfig where
  agent_id : String
  agent_type : String
  max_retries : Nat
  task_timeout : Nat
  deriving Repr, DecidableEq

/-- Loop body of `WorkerAgent._acquire_file_locks` (worker_agent.py lines
223-245): `all_files = task.files_to_create + task.files_to_modify`; for each
file acquire `file:<path>` with `timeout=self.config.task_timeout`, appending
to the acquired list; on any failure release everything acquired so far and
raise `LockAcquisitionError`.  `calls` records every (resource, timeout)
acquire call actually made, in order. -/
def acquireFileLocksGo (taskTimeout : Nat) :
    LockStore → Nat → List Lock → List (String × Nat) → List String →
    Except PyExc (List Lock) × LockStore × Nat × List (String × Nat)
  | st, ctr, acc, calls, [] => (Except.ok acc, st, ctr, calls)
  | st, ctr, acc, calls, f :: fs =>
    match acquire st ctr ("file:" ++ f) with
    | (Except.ok l, st1, c1) =>
      acquireFileLocksGo taskTimeout st1 c1 (acc ++ [l])
        (calls ++ [("file:" ++ f, taskTimeout)]) fs
    | (Except.error e, _, c1) =>
      (Except.error (PyExc.lockAcquisitionError
          ("Failed to acquire lock on " ++ f ++ ": " ++ pyStr e)),
       releaseAll st acc, c1, calls ++ [("file:" ++ f, taskTimeout)])

/-- `WorkerAgent._acquire_file_locks`. -/
def acquireFileLocks (cfg : AgentConfig) (t : Task) (st : LockStore) (ctr : Nat) :
    Except PyExc (List Lock) × LockStore × Nat × List (String × Nat) :=
  acquireFileLocksGo cfg.task_timeout st ctr [] [] (t.files_to_create ++ t.files_to_modify)

/-- The exact sequence of lock-service acquire calls the worker makes for a
task: concatenation order, no dedup, no sorting, one call per file. -/
def workerLockCallSeq (cfg : AgentConfig) (t : Task) : List (String × Nat) :=
  (t.files_to_create ++ t.files_to_modify).map (fun f => ("file:" ++ f, cfg.task_timeout))

/-- Keep-first deduplication (spec-side helper). -/
def dedupFirst : List String → List String
  | [] => []
  | x :: xs => x :: (dedupFirst xs).filter (fun y => y ≠ x)

/-- Lexicographic (code-point) comparison of character lists (spec-side
helper). -/
def lexLeChars : List Char → List Char → Bool
  | [], _ => true
  | _ :: _, [] => false
  | x :: xs, y :: ys =>
    if x.toNat < y.toNat then true
    else if y.toNat < x.toNat then false
    else lexLeChars xs ys

/-- Lexicographic comparison of strings (spec-side helper). -/
def lexLe (a b : String) : Bool := lexLeChars a.data b.data

/-- Insertion into a lexically sorted list (spec-side helper). -/
def insertSorted (x : String) : List String → List String
  | [] => [x]
  | y :: ys => if lexLe x y then x :: y :: ys else y :: insertSorted x ys

/-- Lexical insertion sort (spec-side helper). -/
def sortLex : List String → List String
  | [] => []
  | x :: xs => insertSorted x (sortLex xs)

/-- Claim-side lock plan, following the spec words for the worker (§4.6 step
2a): compute the union of files-to-create and files-to-modify, sort it
lexically, and hand the whole list to one `acquire_multiple` call with TTL
equal to the task timeout.  Returned as (ordered resource list, ttl). -/
def specLockPlan (cfg : AgentConfig) (t : Task) : List String × Nat :=
  ((sortLex (dedupFirst (t.files_to_create ++ t.files_to_modify))).map
      (fun f => "file:" ++ f),
   cfg.task_timeout)

/-! ### Worker result reporting — the RedisQueue call surface

Python resolves `self.queue.<name>` against the methods `RedisQueue`
actually defines, and binds call arguments against the method's
parameters.  The table below is read off redis_queue.py: each public or
private method with its parameter names after `self` and whether the
parameter carries a default.  `mark_failed` does not exist there. -/

def redisQueueMethods : List (String × List (String × Bool)) :=
  [("enqueue", [("task", false)]),
   ("dequeue", [("agent_type", false), ("timeout", true)]),
   ("mark_completed", [("task_id", false), ("result", false)]),
   ("_check_and_enqueue_dependents", [("completed_task_id", false)]),
   ("_check_dependencies_satisfied", [("task_id", false)]),
   ("get_task_status", [("task_id", false)]),
   ("get_queue_depth", [("agent_type", false)]),
   ("get_pending_count", []),
   ("clear_queue", [("agent_type", false)])]

/-- Python call binding: positional arguments fill the leading parameters;
every remaining parameter must be supplied by keyword or carry a default;
unknown keywords are an error. -/
def bindArgs (methodName : String) (params : List (String × Bool)) (npos : Nat)
    (kwargs : List String) : Except PyExc Unit :=
  if npos > params.length then
    Except.error (PyExc.typeError (methodName ++ " given too many positional arguments"))
  else
    let remaining := params.drop npos
    if remaining.all (fun p => kwargs.contains p.1 || p.2) &&
        kwargs.all (fun k => (remaining.map Prod.fst).contains k) then
      Except.ok ()
    else
      Except.error (PyExc.typeError (methodName ++ " missing required argument"))

/-- Attribute lookup plus call binding against RedisQueue. -/
def callQueueMethod (name : String) (npos : Nat) (kwargs : List String) :
    Except PyExc Unit :=
  match lookupA redisQueueMethods name with
  | none => Except.error (PyExc.attributeError "RedisQueue" name)
  | some params => bindArgs name params npos kwargs

/-- The reporting step of `WorkerAgent.run_loop` (worker_agent.py lines
136-147): on success `self.queue.mark_completed(task.id)` — one positional
argument, no keywords; on failure `self.queue.mark_failed(task.id,
error_message=...)` — one positional argument plus the `error_message`
keyword. -/
def workerReportCall (success : Bool) : Except PyExc Unit :=
  if success then callQueueMethod "mark_completed" 1 []
  else callQueueMethod "mark_failed" 1 ["error_message"]

/-- Success path of the worker lock loop: one lock per file, acquire calls in
concatenation order, each with the task timeout. -/
theorem acquireFileLocksGo_ok (fs : List String) :
    ∀ tt st ctr acc calls locks st2 c2 cl2, (keysOf st).Nodup →
    (∀ l ∈ acc, lookupA st (lockKeyFor l.resource) = some l.lock_id) →
    acquireFileLocksGo tt st ctr acc calls fs = (Except.ok locks, st2, c2, cl2) →
    locks.map Lock.resource = acc.map Lock.resource ++ fs.map (fun f => "file:" ++ f) ∧
    cl2 = calls ++ fs.map (fun f => ("file:" ++ f, tt)) ∧ (keysOf st2).Nodup ∧
    (∀ l ∈ locks, lookupA st2 (lockKeyFor l.resource) = some l.lock_id) := by
  induction fs with
  | nil =>
    intro tt st ctr acc calls locks st2 c2 cl2 hnd hlive h
    simp only [acquireFileLocksGo, Prod.mk.injEq, Except.ok.injEq] at h
    obtain ⟨h1, h2, _, h4⟩ := h
    subst h1
    subst h2
    subst h4
    simpa using ⟨hnd, hlive⟩
  | cons f fs ih =>
    intro tt st ctr acc calls locks st2 c2 cl2 hnd hlive h
    simp only [acquireFileLocksGo] at h
    cases hc : containsKey st (lockKeyFor ("file:" ++ f)) with
    | true =>
      rw [acquire_present st ctr ("file:" ++ f) hc] at h
      simp at h
    | false =>
      rw [acquire_absent st ctr ("file:" ++ f) hc] at h
      simp only [] at h
      have habs : lockKeyFor ("file:" ++ f) ∉ keysOf st := (containsKey_false_iff st _).mp hc
      have hnd1 : (keysOf (setA st (lockKeyFor ("file:" ++ f)) ctr)).Nodup :=
        nodup_keys_setA_absent st _ ctr hnd habs
      have hlive1 : ∀ l ∈ acc ++ [({ resource := "file:" ++ f, lock_id := ctr } : Lock)],
          lookupA (setA st (lockKeyFor ("file:" ++ f)) ctr) (lockKeyFor l.resource) =
            some l.lock_id := by
        intro l hl
        rcases List.mem_append.mp hl with hl | hl
        · have hmem := lookupA_isSome_mem st _ _ (hlive l hl)
          have hne : lockKeyFor l.resource ≠ lockKeyFor ("file:" ++ f) :=
            fun he => habs (he ▸ hmem)
          rw [lookupA_setA_other st _ _ ctr hne]
          exact hlive l hl
        · simp only [List.mem_singleton] at hl
          subst hl
          exact lookupA_setA_self st _ ctr
      have hres := ih tt (setA st (lockKeyFor ("file:" ++ f)) ctr) (ctr + 1)
        (acc ++ [({ resource := "file:" ++ f, lock_id := ctr } : Lock)])
        (calls ++ [("file:" ++ f, tt)]) locks st2 c2 cl2 hnd1 hlive1 h
      refine ⟨?_, ?_, hres.2.2.1, hres.2.2.2⟩
      · rw [hres.1]
        simp
      · rw [hres.2.1]
        simp

/-- Failure path of the worker lock loop: a LockAcquisitionError is raised and
the store is pointwise restored to its entry state. -/
theorem acquireFileLocksGo_err (fs : List String) :
    ∀ tt st ctr acc calls e st2 c2 cl2, (keysOf st).Nodup →
    (∀ l ∈ acc, lookupA st (lockKeyFor l.resource) = some l.lock_id) →
    (acc.map (fun l => lockKeyFor l.resource)).Nodup →
    acquireFileLocksGo tt st ctr acc calls fs = (Except.error e, st2, c2, cl2) →
    (∃ m, e = PyExc.lockAcquisitionError m) ∧
    (∃ kk, cl2 = calls ++ (fs.map (fun f => ("file:" ++ f, tt))).take kk) ∧
    ∀ k, lookupA st2 k =
      if k ∈ acc.map (fun l => lockKeyFor l.resource) then none else lookupA st k := by
  induction fs with
  | nil =>
    intro tt st ctr acc calls e st2 c2 cl2 _ _ _ h
    simp [acquireFileLocksGo] at h
  | cons f fs ih =>
    intro tt st ctr acc calls e st2 c2 cl2 hnd hlive hknd h
    simp only [acquireFileLocksGo] at h
    cases hc : containsKey st (lockKeyFor ("file:" ++ f)) with
    | true =>
      rw [acquire_present st ctr ("file:" ++ f) hc] at h
      simp only [Prod.mk.injEq, Except.error.injEq] at h
      obtain ⟨h1, h2, _, h4⟩ := h
      refine ⟨⟨_, h1.symm⟩, ⟨1, by simpa using h4.symm⟩, ?_⟩
      intro k
      rw [← h2]
      exact releaseAll_lookup acc st hnd hlive hknd k
    | false =>
      rw [acquire_absent st ctr ("file:" ++ f) hc] at h
      simp only [] at h
      have habs : lockKeyFor ("file:" ++ f) ∉ keysOf st := (containsKey_false_iff st _).mp hc
      have hnd1 : (keysOf (setA st (lockKeyFor ("file:" ++ f)) ctr)).Nodup :=
        nodup_keys_setA_absent st _ ctr hnd habs
      have hlive1 : ∀ l ∈ acc ++ [({ resource := "file:" ++ f, lock_id := ctr } : Lock)],
          lookupA (setA st (lockKeyFor ("file:" ++ f)) ctr) (lockKeyFor l.resource) =
            some l.lock_id := by
        intro l hl
        rcases List.mem_append.mp hl with hl | hl
        · have hmem := lookupA_isSome_mem st _ _ (hlive l hl)
          have hne : lockKeyFor l.resource ≠ lockKeyFor ("file:" ++ f) :=
            fun he => habs (he ▸ hmem)
          rw [lookupA_setA_other st _ _ ctr hne]
          exact hlive l hl
        · simp only [List.mem_singleton] at hl
          subst hl
          exact lookupA_setA_self st _ ctr
      have hknd1 :
          ((acc ++ [({ resource := "file:" ++ f, lock_id := ctr } : Lock)]).map
            (fun l => lockKeyFor l.resource)).Nodup := by
        simp only [List.map_append, List.map_cons, List.map_nil]
        rw [List.nodup_append]
        refine ⟨hknd, List.nodup_singleton _, ?_⟩
        intro x hx
        have hxk : x ∈ keysOf st := by
          rcases List.mem_map.mp hx with ⟨l, hl, hlx⟩
          exact hlx ▸ lookupA_isSome_mem st _ _ (hlive l hl)
        simp only [List.mem_singleton]
        intro hxr
        exact habs (hxr ▸ hxk)
      have hres := ih tt (setA st (lockKeyFor ("file:" ++ f)) ctr) (ctr + 1)
        (acc ++ [({ resource := "file:" ++ f, lock_id := ctr } : Lock)])
        (calls ++ [("file:" ++ f, tt)]) e st2 c2 cl2 hnd1 hlive1 hknd1 h
      refine ⟨hres.1, ?_, ?_⟩
      · rcases hres.2.1 with ⟨kk, ht⟩
        exact ⟨kk + 1, by simpa using ht⟩
      · intro k
        rw [hres.2.2 k]
        by_cases hk1 : k ∈ (acc ++ [({ resource := "file:" ++ f, lock_id := ctr } : Lock)]).map
            (fun l => lockKeyFor l.resource)
        · simp only [List.map_append, List.map_cons, List.map_nil,
            List.mem_append, List.mem_singleton] at hk1
          rcases hk1 with hk1 | hk1
          · simp [hk1]
          · subst hk1
            have hnm : lockKeyFor ("file:" ++ f) ∉ acc.map (fun l => lockKeyFor l.resource) := by
              intro hm
              rcases List.mem_map.mp hm with ⟨l, hl, hlx⟩
              exact habs (hlx ▸ lookupA_isSome_mem st _ _ (hlive l hl))
            rw [if_neg hnm, if_pos (by simp)]
            exact ((lookupA_eq_none_iff st _).mpr habs).symm
        · have hk2 : k ∉ acc.map (fun l => lockKeyFor l.resource) := by
            intro hm
            refine hk1 ?_
            simp only [List.map_append]
            exact List.mem_append_left _ hm
          have hk3 : k ≠ lockKeyFor ("file:" ++ f) := by
            intro he
            refine hk1 ?_
            simp [he]
          rw [if_neg hk1, if_neg hk2]
          exact lookupA_setA_other st _ _ ctr hk3

/-- Concrete worker configuration for the C6 run. -/
def c6Cfg : AgentConfig :=
  { agent_id := "backend-001", agent_type := "backend", max_retries := 3,
    task_timeout := 300 }

/-- Concrete task whose files are out of lexical order across the two lists. -/
def c6Task : Task :=
  { id := "task_001", title := "edit files", description := "",
    agent_type := "backend", files_to_create := ["b.py"],
    files_to_modify := ["a.py"], dependencies := [] }

/-- Counterexample to claim C6: on a concrete task the worker's
lock-acquisition step performs two individual `acquire` calls in
concatenation order (files-to-create then files-to-modify), which is neither
the lexically sorted order nor a single `acquire_multiple` call on the sorted
union that the claim describes. -/
theorem C6_counterexample :
    (acquireFileLocks c6Cfg c6Task [] 0).2.2.2
      = [("file:b.py", 300), ("file:a.py", 300)]
    ∧ (specLockPlan c6Cfg c6Task).1 = ["file:a.py", "file:b.py"]
    ∧ (acquireFileLocks c6Cfg c6Task [] 0).2.2.2.map Prod.fst
        ≠ (specLockPlan c6Cfg c6Task).1 := by
  refine ⟨rfl, by decide, by decide⟩

/-- Claim C6 (amended): for every task the worker executes, the
lock-acquisition step concatenates files-to-create and files-to-modify in
that order — without deduplication or lexical sorting — and acquires a lock
on each `file:<path>` resource individually through the Lock Service's
`acquire`, each call with a TTL equal to the task timeout; on success it
holds one live lock per listed file, and on any failure it releases every
lock acquired for the call (restoring the store) and raises
LockAcquisitionError. -/
theorem C6_worker_lock_step (cfg : AgentConfig) (t : Task) (st : LockStore)
    (ctr : Nat) (hnd : (keysOf st).Nodup) :
    (∀ locks st2 c2 calls,
        acquireFileLocks cfg t st ctr = (Except.ok locks, st2, c2, calls) →
        calls = workerLockCallSeq cfg t ∧
        locks.map Lock.resource
          = (t.files_to_create ++ t.files_to_modify).map (fun f => "file:" ++ f) ∧
        ∀ l ∈ locks, lookupA st2 (lockKeyFor l.resource) = some l.lock_id)
    ∧ (∀ e st2 c2 calls,
        acquireFileLocks cfg t st ctr = (Except.error e, st2, c2, calls) →
        (∃ m, e = PyExc.lockAcquisitionError m) ∧
        (∃ kk, calls = (workerLockCallSeq cfg t).take kk) ∧
        ∀ k, lookupA st2 k = lookupA st k) := by
  constructor
  · intro locks st2 c2 calls h
    have hres := acquireFileLocksGo_ok (t.files_to_create ++ t.files_to_modify)
      cfg.task_timeout st ctr [] [] locks st2 c2 calls hnd (by simp) h
    refine ⟨by simpa [workerLockCallSeq] using hres.2.1, by simpa using hres.1,
      hres.2.2.2⟩
  · intro e st2 c2 calls h
    have hres := acquireFileLocksGo_err (t.files_to_create ++ t.files_to_modify)
      cfg.task_timeout st ctr [] [] e st2 c2 calls hnd (by simp) (by simp) h
    refine ⟨hres.1, ?_, ?_⟩
    · rcases hres.2.1 with ⟨kk, ht⟩
      exact ⟨kk, by simpa [workerLockCallSeq] using ht⟩
    · intro k
      simpa using hres.2.2 k

/-- Witness for the amended C6 on the concrete task: two acquire calls, in
concatenation order, TTL 300 each. -/
theorem C6_worker_lock_step_witness :
    [("file:b.py", 300), ("file:a.py", 300)] = workerLockCallSeq c6Cfg c6Task := by
  have h := (C6_worker_lock_step c6Cfg c6Task [] 0 (by decide)).1
    [{ resource := "file:b.py", lock_id := 0 }, { resource := "file:a.py", lock_id := 1 }]
    [("lock:file:b.py", 0), ("lock:file:a.py", 1)] 2
    [("file:b.py", 300), ("file:a.py", 300)] rfl
  exact h.1

/-- Claim C7 evaluation at the failing inputs: reporting a successful task
calls `RedisQueue.mark_completed` with the task id only — a TypeError,
because the method requires the result argument — and reporting a failed
task calls `mark_failed`, which `RedisQueue` does not define at all — an
AttributeError.  Neither call reports a result to the queue. -/
theorem C7_report_step_crashes :
    workerReportCall true
      = Except.error (PyExc.typeError "mark_completed missing required argument")
    ∧ workerReportCall false
      = Except.error (PyExc.attributeError "RedisQueue" "mark_failed") := by
  exact ⟨rfl, rfl⟩

/-! ### Merge orchestrator — backend/orchestrator/merge_orchestrator.py

The orchestrator drives: conflict pre-check, quality gates, git merge,
rollback.  The git repository is reduced to the state the claims speak
about: the target branch head and whether a half-applied merge is sitting
in the worktree.  Outcomes of the external steps (what the quality-gate
pipeline and git would answer) are oracle fields of `MergeEnv`; the
attribute surface of `MergeStrategy`, against which the pre-check's method
calls resolve, is the literal list of attributes merge_strategy.py
defines. -/

/-- Attributes of `MergeStrategy` (merge_strategy.py).  Note that
`_get_changed_files` and `_has_diverged`, which
`MergeOrchestrator._detect_conflicts` calls, are not among them. -/
def mergeStrategyAttrs : List String :=
  ["__init__", "repo", "merge_agent_work", "_detect_conflicts", "abort_merge",
   "has_conflicts", "get_merge_base", "get_diff_files", "has_uncommitted_changes"]

structure GitRepoState where
  targetHead : Nat
  mergeInProgress : Bool
  deriving Repr, DecidableEq

structure MergeEnv where
  changedFiles : List String
  divergedInTarget : String → Bool
  runQualityGatesFlag : Bool
  gatesPass : Bool
  checkoutOk : Bool
  gitMergeOk : Bool
  newHead : Nat
  gitConflicts : List String
  abortOk : Bool

/-- `MergeResult` of merge_orchestrator.py (quality_results omitted: a list
of validation-result dictionaries that no claim inspects; commit ids are the
Nat heads of the git model). -/
structure MergeRes where
  success : Bool
  agent_branch : String
  target_branch : String
  commit_sha : Option Nat
  conflict_detected : Bool
  conflicts : List String
  quality_gates_passed : Bool
  error_message : Option String
  rollback_performed : Bool
  deriving Repr, DecidableEq

inductive OrchStep where
  | ranQualityGates
  | ranGitMerge
  | ranAbort
  deriving Repr, DecidableEq

/-- Body of the `try` block in `MergeOrchestrator._detect_conflicts`
(merge_orchestrator.py lines 206-217): call
`self.merge_strategy._get_changed_files(agent_branch)`, then filter the
changed files through `self.merge_strategy._has_diverged`.  Both attribute
lookups are resolved against `mergeStrategyAttrs`; a missing attribute
raises AttributeError. -/
def detectConflictsTry (env : MergeEnv) : Except PyExc (Bool × List String) :=
  if mergeStrategyAttrs.contains "_get_changed_files" then
    let changed := env.changedFiles
    if mergeStrategyAttrs.contains "_has_diverged" then
      let conflicts := changed.filter env.divergedInTarget
      Except.ok (decide (conflicts.length > 0), conflicts)
    else Except.error (PyExc.attributeError "MergeStrategy" "_has_diverged")
  else Except.error (PyExc.attributeError "MergeStrategy" "_get_changed_files")

/-- `MergeOrchestrator._detect_conflicts` (merge_orchestrator.py lines
191-222): on any exception from the body, log and return
`(True, ["Error checking conflicts: <e>"])`. -/
def detectConflicts (env : MergeEnv) : Bool × List String :=
  match detectConflictsTry env with
  | Except.ok r => r
  | Except.error e => (true, ["Error checking conflicts: " ++ pyStr e])

/-- Result of `MergeStrategy.merge_agent_work` (merge_strategy.py lines
42-94), conflicts reduced to their file paths. -/
structure GitMergeRes where
  success : Bool
  commit_sha : Option Nat
  conflicts : List String
  deriving Repr, DecidableEq

/-- `MergeStrategy.merge_agent_work`: checkout target (a failure leaves the
repo untouched), then merge — success advances the target head, a conflict
leaves the head unchanged with a merge in progress. -/
def gitMergeAgentWork (env : MergeEnv) (s : GitRepoState) : GitMergeRes × GitRepoState :=
  if env.checkoutOk = false then
    ({ success := false, commit_sha := none, conflicts := [] }, s)
  else if env.gitMergeOk then
    ({ success := true, commit_sha := some env.newHead, conflicts := [] },
     { s with targetHead := env.newHead })
  else
    ({ success := false, commit_sha := none, conflicts := env.gitConflicts },
     { s with mergeInProgress := true })

/-- `MergeOrchestrator._rollback_merge` (lines 255-270): `git merge --abort`,
true on success, false (state untouched) when the abort itself fails. -/
def rollbackMerge (env : MergeEnv) (s : GitRepoState) : Bool × GitRepoState :=
  if env.abortOk then (true, { s with mergeInProgress := false }) else (false, s)

/-- `MergeOrchestrator.merge_agent_work` (merge_orchestrator.py lines
79-189).  Returns the MergeResult, the repo state, and the trace of
side-effecting steps taken (quality gates, git merge, abort). -/
def mergeAgentWork (env : MergeEnv) (agentBranch targetBranch : String)
    (s : GitRepoState) : MergeRes × GitRepoState × List OrchStep :=
  let dc := detectConflicts env
  if dc.1 then
    ({ success := false, agent_branch := agentBranch, target_branch := targetBranch,
       commit_sha := none, conflict_detected := true, conflicts := dc.2,
       quality_gates_passed := false,
       error_message := some ("Merge conflicts detected in "
         ++ toString dc.2.length ++ " files"),
       rollback_performed := false }, s, [])
  else
    let gateTrace := if env.runQualityGatesFlag then [OrchStep.ranQualityGates] else []
    if env.runQualityGatesFlag && !env.gatesPass then
      ({ success := false, agent_branch := agentBranch, target_branch := targetBranch,
         commit_sha := none, conflict_detected := false, conflicts := [],
         quality_gates_passed := false,
         error_message := some "Quality gates failed",
         rollback_performed := false }, s, gateTrace)
    else
      let gr := gitMergeAgentWork env s
      if gr.1.success then
        ({ success := true, agent_branch := agentBranch, target_branch := targetBranch,
           commit_sha := gr.1.commit_sha, conflict_detected := false, conflicts := [],
           quality_gates_passed := true, error_message := none,
           rollback_performed := false }, gr.2, gateTrace ++ [OrchStep.ranGitMerge])
      else
        let rb := rollbackMerge env gr.2
        ({ success := false, agent_branch := agentBranch, target_branch := targetBranch,
           commit_sha := none, conflict_detected := true, conflicts := gr.1.conflicts,
           quality_gates_passed := true,
           error_message := some ("Merge operation failed: "
             ++ toString gr.1.conflicts.length ++ " conflicts"),
           rollback_performed := rb.1 }, rb.2,
         gateTrace ++ [OrchStep.ranGitMerge, OrchStep.ranAbort])

/-- The conflict pre-check always raises: the first statement of its body
resolves a method `MergeStrategy` does not define. -/
theorem detectConflictsTry_always_raises (env : MergeEnv) :
    detectConflictsTry env
      = Except.error (PyExc.attributeError "MergeStrategy" "_get_changed_files") := rfl

/-- Hence every call short-circuits with the caught-error conflict list. -/
theorem detectConflicts_always (env : MergeEnv) :
    detectConflicts env
      = (true, ["Error checking conflicts: "
          ++ pyStr (PyExc.attributeError "MergeStrategy" "_get_changed_files")]) := rfl

/-- Evaluation of the full orchestration under the broken pre-check. -/
theorem mergeAgentWork_eq (env : MergeEnv) (ab tb : String) (s : GitRepoState) :
    mergeAgentWork env ab tb s
      = ({ success := false, agent_branch := ab, target_branch := tb,
           commit_sha := none, conflict_detected := true,
           conflicts := ["Error checking conflicts: "
             ++ pyStr (PyExc.attributeError "MergeStrategy" "_get_changed_files")],
           quality_gates_passed := false,
           error_message := some "Merge conflicts detected in 1 files",
           rollback_performed := false }, s, []) := by
  unfold mergeAgentWork
  rw [detectConflicts_always]
  rfl

/-- Scenario F environment: both the worker branch and the mainline modified
README.md; every other step of the funnel would succeed. -/
def c1EnvConflict : MergeEnv :=
  { changedFiles := ["README.md"], divergedInTarget := fun f => decide (f = "README.md"),
    runQualityGatesFlag := true, gatesPass := true, checkoutOk := true,
    gitMergeOk := true, newHead := 2, gitConflicts := [], abortOk := true }

/-- Clean environment (test 1 of test_merge_orchestrator.py): the agent
changed only hello.py and the target branch touched nothing. -/
def c1EnvClean : MergeEnv :=
  { changedFiles := ["hello.py"], divergedInTarget := fun _ => false,
    runQualityGatesFlag := true, gatesPass := true, checkoutOk := true,
    gitMergeOk := true, newHead := 2, gitConflicts := [], abortOk := true }

def c1State : GitRepoState := { targetHead := 1, mergeInProgress := false }

/-- Claim C1 evaluated at its failing inputs: `_detect_conflicts` resolves a
method `MergeStrategy` does not define, so the AttributeError it raises is
caught and every call short-circuits with the error string — in scenario F
the conflict list is the error string, never ["README.md"], and on a
conflict-free repo (the repository's own test 1, which expects success) the
call still returns success=false. -/
theorem C1_conflict_precheck_always_errors :
    mergeStrategyAttrs.contains "_get_changed_files" = false
    ∧ (detectConflicts c1EnvConflict).2 ≠ ["README.md"]
    ∧ (mergeAgentWork c1EnvConflict "agent-backend-001" "main" c1State).1.conflicts
        = ["Error checking conflicts: MergeStrategy object has no attribute _get_changed_files"]
    ∧ (mergeAgentWork c1EnvClean "agent-test-001" "main" c1State).1.success = false := by
  refine ⟨rfl, by decide, rfl, rfl⟩

/-- Claim C2: whenever merge_agent_work returns a non-success result, the
target branch head and worktree state equal their state at entry, and
rollback_performed is true exactly when a merge abort was performed and
succeeded.  (With the pre-check of C1 always erroring, every call returns at
step 1 without touching the repository, so this holds over the whole input
space.) -/
theorem C2_nonsuccess_preserves_target (env : MergeEnv) (ab tb : String)
    (s : GitRepoState) :
    ((mergeAgentWork env ab tb s).1.success = false →
      (mergeAgentWork env ab tb s).2.1 = s)
    ∧ ((mergeAgentWork env ab tb s).1.rollback_performed = true ↔
        (OrchStep.ranAbort ∈ (mergeAgentWork env ab tb s).2.2 ∧ env.abortOk = true)) := by
  rw [mergeAgentWork_eq]
  exact ⟨fun _ => rfl, by simp⟩

/-- Witness for C2 at the scenario-F environment: the repo state is returned
exactly as it was at entry. -/
theorem C2_nonsuccess_preserves_target_witness :
    (mergeAgentWork c1EnvConflict "agent-backend-001" "main" c1State).2.1 = c1State :=
  (C2_nonsuccess_preserves_target c1EnvConflict "agent-backend-001" "main" c1State).1 rfl

/-- Claim C10: if the conflict-detection body raises, merge_agent_work does
not propagate the exception; it returns success=false with
conflict_detected=true and a single error-description string as the conflict
list, runs no quality gates, attempts no merge, and leaves the repository
untouched. -/
theorem C10_detect_error_fail_closed (env : MergeEnv) (e : PyExc) (ab tb : String)
    (s : GitRepoState) (herr : detectConflictsTry env = Except.error e) :
    (mergeAgentWork env ab tb s).1.success = false
    ∧ (mergeAgentWork env ab tb s).1.conflict_detected = true
    ∧ (mergeAgentWork env ab tb s).1.conflicts
        = ["Error checking conflicts: " ++ pyStr e]
    ∧ (mergeAgentWork env ab tb s).2.2 = []
    ∧ (mergeAgentWork env ab tb s).2.1 = s := by
  have he : e = PyExc.attributeError "MergeStrategy" "_get_changed_files" := by
    have h0 := detectConflictsTry_always_raises env
    rw [herr] at h0
    injection h0
  subst he
  rw [mergeAgentWork_eq]
  exact ⟨rfl, rfl, rfl, rfl, rfl⟩

/-- Witness for C10: at the scenario-F environment the orchestrator runs
neither the validation pipeline nor the merge (empty step trace). -/
theorem C10_detect_error_fail_closed_witness :
    (mergeAgentWork c1EnvConflict "agent-x" "main" c1State).2.2 = ([] : List OrchStep) :=
  (C10_detect_error_fail_closed c1EnvConflict
    (PyExc.attributeError "MergeStrategy" "_get_changed_files")
    "agent-x" "main" c1State rfl).2.2.2.1

/-! ### Quality validators — backend/quality/lint_checker.py and
backend/quality/syntax_validator.py

Only the pure decision logic is embedded: how tool findings become issues
(their severities) and how the issue list determines the returned status.
`duration_seconds` (wall clock) and the free-text `output` field are
omitted. -/

inductive VStatus where
  | passed
  | failed
  | skipped
  | error
  deriving Repr, DecidableEq

structure VIssue where
  file : String
  line : Option Nat
  column : Option Nat
  severity : String
  message : String
  rule : Option String
  deriving Repr, DecidableEq

/-- Severity assigned to an eslint message (lint_checker.py line 189):
eslint severity 2 is "error", everything else "warning". -/
def eslintSeverity (sev : Nat) : String :=
  if sev = 2 then "error" else "warning"

/-- Severity assigned to a ruff finding (lint_checker.py line 117). -/
def ruffSeverity (ty : String) : String :=
  if ty = "error" then "error" else "warning"

/-- Status computation of `LintChecker.validate` (lint_checker.py line 51):
`FAILED if issues else PASSED` — any issue at all fails the gate. -/
def lintStatusOf (issues : List VIssue) : VStatus :=
  if issues.isEmpty then VStatus.passed else VStatus.failed

/-- Status computation of `SyntaxValidator.validate` (syntax_validator.py
line 48): the same `FAILED if issues else PASSED`. -/
def synvStatusOf (issues : List VIssue) : VStatus :=
  if issues.isEmpty then VStatus.passed else VStatus.failed

/-- Severity of every issue SyntaxValidator itself constructs
(syntax_validator.py lines 78, 91, 160): always "error". -/
def synvIssueSeverity : String := "error"

/-- Claim-side status rule, following the claim words: passed when the
issue list contains no error-severity issue, failed when one is present. -/
def claimStatusOfIssues (issues : List VIssue) : VStatus :=
  if issues.any (fun i => i.severity = "error") then VStatus.failed
  else VStatus.passed

/-- A warning-severity lint issue exactly as the code builds one from an
eslint message of severity 1. -/
def c9WarnIssue : VIssue :=
  { file := "app.js", line := some 3, column := some 1,
    severity := eslintSeverity 1, message := "no-unused-vars",
    rule := some "no-unused-vars" }

/-- Counterexample to claim C9: a lint run whose only issue is
warning-severity gets status failed from the code, while the claim says such
a run still has status passed. -/
theorem C9_counterexample :
    lintStatusOf [c9WarnIssue] = VStatus.failed
    ∧ c9WarnIssue.severity = "warning"
    ∧ claimStatusOfIssues [c9WarnIssue] = VStatus.passed
    ∧ lintStatusOf [c9WarnIssue] ≠ claimStatusOfIssues [c9WarnIssue] := by
  refine ⟨rfl, rfl, rfl, by decide⟩

/-- Claim C9 (amended): for every lint or syntax validator run that completes
without internal error, the returned status is passed if and only if the
issue list is empty — any issue, warning-severity included, forces failed;
in particular the presence of an error-severity issue forces failed.  For
the syntax validator the original claim also holds as stated, because every
issue it constructs carries error severity. -/
theorem C9_status_iff_no_issues (issues : List VIssue) :
    (lintStatusOf issues = VStatus.passed ↔ issues = [])
    ∧ (synvStatusOf issues = VStatus.passed ↔ issues = [])
    ∧ ((∃ i ∈ issues, i.severity = "error") → lintStatusOf issues = VStatus.failed)
    ∧ ((∀ i ∈ issues, i.severity = synvIssueSeverity) →
        (synvStatusOf issues = claimStatusOfIssues issues)) := by
  refine ⟨?_, ?_, ?_, ?_⟩
  · cases issues with
    | nil => simp [lintStatusOf]
    | cons i rest => simp [lintStatusOf]
  · cases issues with
    | nil => simp [synvStatusOf]
    | cons i rest => simp [synvStatusOf]
  · rintro ⟨i, hi, _⟩
    cases issues with
    | nil => cases hi
    | cons j rest => simp [lintStatusOf]
  · intro hall
    cases issues with
    | nil => simp [synvStatusOf, claimStatusOfIssues]
    | cons j rest =>
      have hj : j.severity = "error" := hall j (List.mem_cons_self j rest)
      simp [synvStatusOf, claimStatusOfIssues, List.any_cons, hj]

/-- Witness for the amended C9 at concrete inputs: the warning-only run is
not passed, and an empty run is passed. -/
theorem C9_status_iff_no_issues_witness :
    ¬ ([c9WarnIssue] = ([] : List VIssue)) ∧ lintStatusOf [] = VStatus.passed := by
  constructor
  · intro h
    have := (C9_status_iff_no_issues [c9WarnIssue]).1.mpr
    cases h
  · exact (C9_status_iff_no_issues []).1.mpr rfl

/-! ### Dependency graph — backend/orchestrator/dependency_graph.py

`TaskNode.estimated_hours` (float) is omitted.  Python dicts become
insertion-ordered association lists; sets become lists.  The recursive
cycle-detection DFS is embedded with a fuel parameter large enough for any
run (each nested call visits an unvisited node); fuel exhaustion is
reported as a cycle, and the theorems below only ever rely on runs that
report no cycle, where no fuel can have been exhausted.  The embedding
additionally records the order in which nodes finish (`DfsSt.finished`);
this instrumentation field influences no returned value and is absent from
the source. -/

structure TaskNode where
  task_id : String
  title : String
  agent_type : String
  dependencies : List String
  deriving Repr, DecidableEq

structure DepGraph where
  nodes : List (String × TaskNode)
  edges : List (String × List String)
  deriving Repr, DecidableEq

/-- `DependencyGraph.add_node` (dependency_graph.py lines 28-48). -/
def addNode (g : DepGraph) (n : TaskNode) : DepGraph :=
  let nodes2 := if containsKey g.nodes n.task_id then setA g.nodes n.task_id n
    else g.nodes ++ [(n.task_id, n)]
  let edges0 := if containsKey g.edges n.task_id then g.edges
    else g.edges ++ [(n.task_id, [])]
  let edges2 := n.dependencies.foldl (fun es dep =>
    if containsKey es dep then appendAt es dep n.task_id
    else es ++ [(dep, [n.task_id])]) edges0
  { nodes := nodes2, edges := edges2 }

/-- A graph built by a sequence of add_node calls on an initially empty
graph. -/
def buildGraph (ns : List TaskNode) : DepGraph :=
  ns.foldl addNode { nodes := [], edges := [] }

def nodeIds (g : DepGraph) : List String := g.nodes.map Prod.fst

def succsOf (g : DepGraph) (u : String) : List String := lookupD g.edges u []

def depsOf (g : DepGraph) (u : String) : List String :=
  match lookupA g.nodes u with
  | some n => n.dependencies
  | none => []

structure DfsSt where
  visited : List String
  stack : List String
  finished : List String
  deriving Repr, DecidableEq

/-- One iteration of the dependent-walk inside `has_cycle`: a dependent on
the recursion stack closes a cycle, a visited one off the stack is skipped,
an unvisited one is explored through `next` (the recursive call at the
remaining fuel); once a cycle is found the remaining iterations pass it
through unchanged (the Python code returns at that point). -/
def dfsStep (next : String → List String → DfsSt → Option (List String) × DfsSt)
    (path2 : List String) (acc : Option (List String) × DfsSt) (d : String) :
    Option (List String) × DfsSt :=
  match acc.1 with
  | some c => (some c, acc.2)
  | none =>
    if d ∈ acc.2.visited then
      if d ∈ acc.2.stack then (some (path2 ++ [d]), acc.2) else (none, acc.2)
    else next d path2 acc.2

/-- The recursive `has_cycle` closure of `validate_acyclic`
(dependency_graph.py lines 122-139): mark visited, push onto the recursion
stack, walk the dependents; an unvisited dependent is explored recursively
with a copy of the path, a dependent on the recursion stack closes a cycle;
on clean completion pop the stack (and record the finish order). -/
def dfsNode : Nat → DepGraph → String → List String → DfsSt →
    Option (List String) × DfsSt
  | 0, _, _, _, st => (some [], st)
  | fuel + 1, g, u, path, st =>
    let st1 : DfsSt := { st with visited := u :: st.visited, stack := u :: st.stack }
    let path2 := path ++ [u]
    let res := (succsOf g u).foldl (dfsStep (dfsNode fuel g) path2) (none, st1)
    match res.1 with
    | some c => (some c, res.2)
    | none =>
      let stE := res.2
      (none, { stE with stack := stE.stack.erase u, finished := stE.finished ++ [u] })

/-- Fuel bound: more than the total size of the graph. -/
def dfsFuel (g : DepGraph) : Nat :=
  g.nodes.length + (g.edges.map (fun p => p.2.length + 1)).sum + 2

/-- The top-level loop of `validate_acyclic` (dependency_graph.py lines
141-148): run the DFS from every not-yet-visited node. -/
def valGo (fuel : Nat) (g : DepGraph) : List String → DfsSt →
    Option (List String) × DfsSt
  | [], st => (none, st)
  | tid :: rest, st =>
    if tid ∈ st.visited then valGo fuel g rest st
    else
      match dfsNode fuel g tid [] st with
      | (some c, st2) => (some c, st2)
      | (none, st2) => valGo fuel g rest st2

/-- `DependencyGraph.validate_acyclic` plus the final DFS state. -/
def validateAcyclicAux (g : DepGraph) : (Bool × Option (List String)) × DfsSt :=
  match valGo (dfsFuel g) g (nodeIds g) { visited := [], stack := [], finished := [] } with
  | (some c, st) => ((false, some c), st)
  | (none, st) => ((true, none), st)

/-- `DependencyGraph.validate_acyclic` (dependency_graph.py lines 112-148). -/
def validateAcyclic (g : DepGraph) : Bool × Option (List String) :=
  (validateAcyclicAux g).1

/-- `in_degree = {task_id: len(node.dependencies) ...}` (line 166). -/
def initInDeg (g : DepGraph) : List (String × Int) :=
  g.nodes.map (fun p => (p.1, (p.2.dependencies.length : Int)))

/-- One in-degree decrement (dependency_graph.py lines 190-191): decrement
the entry of `dep` when it exists. -/
def decStep (i2 : List (String × Int)) (dep : String) : List (String × Int) :=
  if containsKey i2 dep then setA i2 dep (lookupD i2 dep 0 - 1) else i2

/-- Decrement the in-degree of every dependent of `tid` that has an
in-degree entry (lines 188-191). -/
def decDeps (g : DepGraph) (ind : List (String × Int)) (tid : String) :
    List (String × Int) :=
  (succsOf g tid).foldl decStep ind

/-- The while-loop of `get_execution_order` (lines 171-192): collect the
zero in-degree members of `remaining` as the next level, raise when there
are none, else remove them and decrement their dependents. -/
def kahnLoop (g : DepGraph) : Nat → List String → List (String × Int) →
    List (List String) → Except String (List (List String))
  | 0, remaining, _, acc =>
    if remaining.isEmpty then Except.ok acc else Except.error "fuel exhausted"
  | fuel + 1, remaining, ind, acc =>
    if remaining.isEmpty then Except.ok acc
    else
      let currentLevel := remaining.filter (fun tid => lookupD ind tid 0 = 0)
      if currentLevel.isEmpty then
        Except.error "No tasks with in-degree 0, but graph not empty"
      else
        kahnLoop g fuel (remaining.filter (fun tid => tid ∉ currentLevel))
          (currentLevel.foldl (decDeps g) ind) (acc ++ [currentLevel])

/-- `DependencyGraph.get_execution_order` (dependency_graph.py lines
150-193): validate first and raise on a cycle, then run Kahn levels. -/
def getExecutionOrder (g : DepGraph) : Except String (List (List String)) :=
  match validateAcyclic g with
  | (false, cyc) =>
    Except.error ("Graph has circular dependency: "
      ++ String.intercalate " -> " (cyc.getD []))
  | (true, _) => kahnLoop g (nodeIds g).length (nodeIds g) (initInDeg g) []

/-- Node whose dependency id does not exist in the graph. -/
def c8GhostNode : TaskNode :=
  { task_id := "A", title := "api", agent_type := "backend",
    dependencies := ["ghost"] }

/-- Counterexample to claim C8 as stated: on the graph holding one node A
with a dependency on an id absent from the graph, validate_acyclic reports
no cycle, yet get_execution_order raises (A's in-degree never reaches
zero) instead of returning levels. -/
theorem C8_counterexample :
    (validateAcyclic (buildGraph [c8GhostNode])).1 = true
    ∧ (validateAcyclic (buildGraph [c8GhostNode])).2 = none
    ∧ getExecutionOrder (buildGraph [c8GhostNode])
        = Except.error "No tasks with in-degree 0, but graph not empty" := by
  exact ⟨rfl, rfl, rfl⟩

/-- Finish-order ranking: every edge points from a later-finished node to an
earlier-finished one. -/
def RankOK (g : DepGraph) (fin : List String) : Prop :=
  ∀ x ∈ fin, ∀ d ∈ succsOf g x, d ∈ fin ∧ fin.indexOf d < fin.indexOf x

/-- DFS state invariant: visited is exactly stack plus finished, both
duplicate-free and disjoint, and the finished list is ranked. -/
def DfsInv (g : DepGraph) (st : DfsSt) : Prop :=
  (∀ x, x ∈ st.visited ↔ (x ∈ st.stack ∨ x ∈ st.finished))
  ∧ st.stack.Nodup
  ∧ st.finished.Nodup
  ∧ (∀ x, x ∈ st.stack → x ∉ st.finished)
  ∧ RankOK g st.finished

theorem RankOK_append (g : DepGraph) (fin : List String) (u : String)
    (h : RankOK g fin) (hu : ∀ d ∈ succsOf g u, d ∈ fin) (hnu : u ∉ fin) :
    RankOK g (fin ++ [u]) := by
  intro x hx d hd
  rcases List.mem_append.mp hx with hx | hx
  · obtain ⟨hdf, hlt⟩ := h x hx d hd
    refine ⟨List.mem_append_left _ hdf, ?_⟩
    rw [List.indexOf_append_of_mem hdf, List.indexOf_append_of_mem hx]
    exact hlt
  · simp only [List.mem_singleton] at hx
    subst hx
    have hdf := hu d hd
    refine ⟨List.mem_append_left _ hdf, ?_⟩
    rw [List.indexOf_append_of_mem hdf, List.indexOf_append_of_not_mem hnu]
    have hlen : fin.indexOf d < fin.length := List.indexOf_lt_length.mpr hdf
    have : ([x].indexOf x) = 0 := List.indexOf_cons_self x []
    omega

/-- Once the walk has found a cycle, the remaining iterations change
nothing. -/
theorem dfsFold_some (f : String → List String → DfsSt → Option (List String) × DfsSt)
    (path2 : List String) (c : List String) (st : DfsSt) (ds : List String) :
    ds.foldl (dfsStep f path2) (some c, st) = (some c, st) := by
  induction ds with
  | nil => rfl
  | cons d ds ih =>
    rw [List.foldl_cons]
    exact ih

/-- The dependent-walk, on a clean (no-cycle) completion: the invariant is
maintained, the stack is untouched, the finished list only grows, visited
only grows, and every walked dependent ends up finished. -/
theorem dfsFold_none (g : DepGraph) (fuel : Nat) (path2 : List String)
    (ihn : ∀ u path st st2, DfsInv g st → u ∉ st.visited →
      dfsNode fuel g u path st = (none, st2) →
      DfsInv g st2 ∧ st2.stack = st.stack ∧
      (∃ delta, st2.finished = st.finished ++ delta) ∧
      u ∈ st2.finished ∧ (∀ x ∈ st.visited, x ∈ st2.visited)) :
    ∀ (ds : List String) (st st2 : DfsSt), DfsInv g st →
    ds.foldl (dfsStep (dfsNode fuel g) path2) (none, st) = (none, st2) →
    DfsInv g st2 ∧ st2.stack = st.stack ∧
    (∃ delta, st2.finished = st.finished ++ delta) ∧
    (∀ x ∈ st.visited, x ∈ st2.visited) ∧
    (∀ d ∈ ds, d ∈ st2.finished) := by
  intro ds
  induction ds with
  | nil =>
    intro st st2 hinv h
    simp only [List.foldl_nil] at h
    injection h with h1 h2
    subst h2
    exact ⟨hinv, rfl, ⟨[], by simp⟩, fun x hx => hx, by simp⟩
  | cons d ds ih =>
    intro st st2 hinv h
    rw [List.foldl_cons] at h
    by_cases hv : d ∈ st.visited
    · by_cases hs : d ∈ st.stack
      · rw [show dfsStep (dfsNode fuel g) path2 (none, st) d
            = (some (path2 ++ [d]), st) by simp [dfsStep, hv, hs]] at h
        rw [dfsFold_some] at h
        exact absurd h (by simp)
      · rw [show dfsStep (dfsNode fuel g) path2 (none, st) d
            = (none, st) by simp [dfsStep, hv, hs]] at h
        have hfin : d ∈ st.finished := by
          rcases (hinv.1 d).mp hv with hh | hh
          · exact absurd hh hs
          · exact hh
        have hrest := ih st st2 hinv h
        refine ⟨hrest.1, hrest.2.1, hrest.2.2.1, hrest.2.2.2.1, ?_⟩
        intro x hx
        rcases List.mem_cons.mp hx with hx | hx
        · subst hx
          rcases hrest.2.2.1 with ⟨delta, hdelta⟩
          rw [hdelta]
          exact List.mem_append_left _ hfin
        · exact hrest.2.2.2.2 x hx
    · rw [show dfsStep (dfsNode fuel g) path2 (none, st) d
          = dfsNode fuel g d path2 st by simp [dfsStep, hv]] at h
      rcases hd : dfsNode fuel g d path2 st with ⟨r, stN⟩
      rw [hd] at h
      cases r with
      | some c =>
        rw [dfsFold_some] at h
        exact absurd h (by simp)
      | none =>
        have hpkg := ihn d path2 st stN hinv hv hd
        have hrest := ih stN st2 hpkg.1 h
        refine ⟨hrest.1, ?_, ?_, ?_, ?_⟩
        · rw [hrest.2.1, hpkg.2.1]
        · rcases hpkg.2.2.1 with ⟨d1, hd1⟩
          rcases hrest.2.2.1 with ⟨d2, hd2⟩
          exact ⟨d1 ++ d2, by rw [hd2, hd1, List.append_assoc]⟩
        · intro x hx
          exact hrest.2.2.2.1 x (hpkg.2.2.2.2 x hx)
        · intro x hx
          rcases List.mem_cons.mp hx with hx | hx
          · subst hx
            rcases hrest.2.2.1 with ⟨d2, hd2⟩
            rw [hd2]
            exact List.mem_append_left _ hpkg.2.2.2.1
          · exact hrest.2.2.2.2 x hx

/-- A clean `has_cycle` run from an unvisited node: the invariant is
maintained, the stack is restored, the node (and everything newly explored)
is appended to the finished order. -/
theorem dfsNode_none (g : DepGraph) :
    ∀ (fuel : Nat) (u : String) (path : List String) (st st2 : DfsSt),
    DfsInv g st → u ∉ st.visited →
    dfsNode fuel g u path st = (none, st2) →
    DfsInv g st2 ∧ st2.stack = st.stack ∧
    (∃ delta, st2.finished = st.finished ++ delta) ∧
    u ∈ st2.finished ∧ (∀ x ∈ st.visited, x ∈ st2.visited) := by
  intro fuel
  induction fuel with
  | zero =>
    intro u path st st2 _ _ h
    simp [dfsNode] at h
  | succ fuel ih =>
    intro u path st st2 hinv hu h
    have hustk : u ∉ st.stack := fun hs => hu ((hinv.1 u).mpr (Or.inl hs))
    have hufin : u ∉ st.finished := fun hf => hu ((hinv.1 u).mpr (Or.inr hf))
    have hinv1 : DfsInv g { st with visited := u :: st.visited, stack := u :: st.stack } := by
      refine ⟨?_, ?_, hinv.2.2.1, ?_, hinv.2.2.2.2⟩
      · intro x
        constructor
        · intro hx
          rcases List.mem_cons.mp hx with hx | hx
          · exact Or.inl (hx ▸ List.mem_cons_self x st.stack)
          · rcases (hinv.1 x).mp hx with hh | hh
            · exact Or.inl (List.mem_cons_of_mem u hh)
            · exact Or.inr hh
        · intro hx
          rcases hx with hx | hx
          · rcases List.mem_cons.mp hx with hx | hx
            · exact hx ▸ List.mem_cons_self x st.visited
            · exact List.mem_cons_of_mem u ((hinv.1 x).mpr (Or.inl hx))
          · exact List.mem_cons_of_mem u ((hinv.1 x).mpr (Or.inr hx))
      · exact List.nodup_cons.mpr ⟨hustk, hinv.2.1⟩
      · intro x hx
        rcases List.mem_cons.mp hx with hx | hx
        · subst hx
          exact hufin
        · exact hinv.2.2.2.1 x hx
    simp only [dfsNode] at h
    rcases hres : (succsOf g u).foldl (dfsStep (dfsNode fuel g) (path ++ [u]))
        (none, { st with visited := u :: st.visited, stack := u :: st.stack })
      with ⟨r, stR⟩
    rw [hres] at h
    cases r with
    | some c => simp at h
    | none =>
      rw [Prod.mk.injEq] at h
      obtain ⟨-, hst2⟩ := h
      subst hst2
      have hpkg := dfsFold_none g fuel (path ++ [u]) ih (succsOf g u)
        { st with visited := u :: st.visited, stack := u :: st.stack } stR hinv1 hres
      have hstkR : stR.stack = u :: st.stack := hpkg.2.1
      have herase : stR.stack.erase u = st.stack := by
        rw [hstkR]
        exact List.erase_cons_head u st.stack
      have hufinR : u ∉ stR.finished :=
        hpkg.1.2.2.2.1 u (by rw [hstkR]; exact List.mem_cons_self u st.stack)
      dsimp only
      rw [herase]
      refine ⟨⟨?_, ?_, ?_, ?_, ?_⟩, rfl, ?_, ?_, ?_⟩
      · intro x
        constructor
        · intro hx
          rcases (hpkg.1.1 x).mp hx with hh | hh
          · rw [hstkR] at hh
            rcases List.mem_cons.mp hh with hh | hh
            · subst hh
              exact Or.inr (List.mem_append_right _ (by simp))
            · exact Or.inl hh
          · exact Or.inr (List.mem_append_left _ hh)
        · intro hx
          rcases hx with hx | hx
          · refine (hpkg.1.1 x).mpr (Or.inl ?_)
            rw [hstkR]
            exact List.mem_cons_of_mem u hx
          · rcases List.mem_append.mp hx with hh | hh
            · exact (hpkg.1.1 x).mpr (Or.inr hh)
            · simp only [List.mem_singleton] at hh
              subst hh
              exact hpkg.2.2.2.1 x (List.mem_cons_self x st.visited)
      · exact hinv.2.1
      · rw [List.nodup_append]
        refine ⟨hpkg.1.2.2.1, List.nodup_singleton u, ?_⟩
        intro x hx
        simp only [List.mem_singleton]
        intro he
        exact hufinR (he ▸ hx)
      · intro x hx hxf
        rcases List.mem_append.mp hxf with hh | hh
        · refine hpkg.1.2.2.2.1 x ?_ hh
          rw [hstkR]
          exact List.mem_cons_of_mem u hx
        · simp only [List.mem_singleton] at hh
          exact hustk (hh ▸ hx)
      · exact RankOK_append g stR.finished u hpkg.1.2.2.2.2 hpkg.2.2.2.2 hufinR
      · rcases hpkg.2.2.1 with ⟨delta, hdelta⟩
        refine ⟨delta ++ [u], ?_⟩
        rw [hdelta]
        exact (List.append_assoc _ _ _)
      · exact List.mem_append_right _ (by simp)
      · intro x hx
        exact hpkg.2.2.2.1 x (List.mem_cons_of_mem u hx)

/-- The top-level validation loop, when it reports no cycle: starting from an
invariant state with an empty recursion stack, it ends in an invariant state
with an empty stack, a grown finished order, and every listed id finished. -/
theorem valGo_none (g : DepGraph) (fuel : Nat) :
    ∀ (ids : List String) (st st2 : DfsSt), DfsInv g st → st.stack = [] →
    valGo fuel g ids st = (none, st2) →
    DfsInv g st2 ∧ st2.stack = [] ∧
    (∃ delta, st2.finished = st.finished ++ delta) ∧
    ∀ tid ∈ ids, tid ∈ st2.finished := by
  intro ids
  induction ids with
  | nil =>
    intro st st2 hinv hstk h
    simp only [valGo] at h
    injection h with h1 h2
    subst h2
    exact ⟨hinv, hstk, ⟨[], by simp⟩, by simp⟩
  | cons tid rest ih =>
    intro st st2 hinv hstk h
    simp only [valGo] at h
    by_cases hv : tid ∈ st.visited
    · rw [if_pos hv] at h
      have hfin : tid ∈ st.finished := by
        rcases (hinv.1 tid).mp hv with hh | hh
        · rw [hstk] at hh
          cases hh
        · exact hh
      have hrest := ih st st2 hinv hstk h
      refine ⟨hrest.1, hrest.2.1, hrest.2.2.1, ?_⟩
      intro x hx
      rcases List.mem_cons.mp hx with hx | hx
      · subst hx
        rcases hrest.2.2.1 with ⟨delta, hdelta⟩
        rw [hdelta]
        exact List.mem_append_left _ hfin
      · exact hrest.2.2.2 x hx
    · rw [if_neg hv] at h
      rcases hd : dfsNode fuel g tid [] st with ⟨r, stN⟩
      rw [hd] at h
      cases r with
      | some c => simp at h
      | none =>
        have hpkg := dfsNode_none g fuel tid [] st stN hinv hv hd
        have hstkN : stN.stack = [] := by rw [hpkg.2.1, hstk]
        have hrest := ih stN st2 hpkg.1 hstkN h
        refine ⟨hrest.1, hrest.2.1, ?_, ?_⟩
        · rcases hpkg.2.2.1 with ⟨d1, hd1⟩
          rcases hrest.2.2.1 with ⟨d2, hd2⟩
          refine ⟨d1 ++ d2, ?_⟩
          rw [hd2, hd1]
          exact List.append_assoc _ _ _
        · intro x hx
          rcases List.mem_cons.mp hx with hx | hx
          · subst hx
            rcases hrest.2.2.1 with ⟨d2, hd2⟩
            rw [hd2]
            exact List.mem_append_left _ hpkg.2.2.2.1
          · exact hrest.2.2.2 x hx

/-- Shape of the validate_acyclic result: either a cycle was reported or the
verdict is (true, none). -/
theorem validateAcyclicAux_shape (g : DepGraph) :
    (∃ c st, validateAcyclicAux g = ((false, some c), st))
    ∨ (∃ st, validateAcyclicAux g = ((true, none), st)) := by
  unfold validateAcyclicAux
  split
  · exact Or.inl ⟨_, _, rfl⟩
  · exact Or.inr ⟨_, rfl⟩

/-- When validate_acyclic reports no cycle, its run produced some final DFS
state. -/
theorem validateAcyclic_true_aux (g : DepGraph)
    (h : (validateAcyclic g).1 = true) :
    ∃ st, validateAcyclicAux g = ((true, none), st) := by
  rcases validateAcyclicAux_shape g with ⟨c, stF, heq⟩ | ⟨stF, heq⟩
  · unfold validateAcyclic at h
    rw [heq] at h
    simp at h
  · exact ⟨stF, heq⟩

/-- Inversion: a (true, none) verdict came from a no-cycle valGo run ending
in that state. -/
theorem validateAcyclicAux_none (g : DepGraph) (st : DfsSt)
    (h : validateAcyclicAux g = ((true, none), st)) :
    valGo (dfsFuel g) g (nodeIds g) { visited := [], stack := [], finished := [] }
      = (none, st) := by
  unfold validateAcyclicAux at h
  split at h
  · simp at h
  · next st2 heq =>
    rw [Prod.mk.injEq] at h
    rw [heq, h.2]

/-- Main DFS fact: a no-cycle verdict comes with a finish ranking covering
every node. -/
theorem validate_finished (g : DepGraph) (st : DfsSt)
    (h : validateAcyclicAux g = ((true, none), st)) :
    RankOK g st.finished ∧ st.finished.Nodup ∧ ∀ tid ∈ nodeIds g, tid ∈ st.finished := by
  have hv := validateAcyclicAux_none g st h
  have hinv0 : DfsInv g { visited := [], stack := [], finished := [] } := by
    refine ⟨?_, List.nodup_nil, List.nodup_nil, ?_, ?_⟩
    · intro x
      simp
    · intro x hx
      cases hx
    · intro x hx
      cases hx
  have hpkg := valGo_none g (dfsFuel g) (nodeIds g)
    { visited := [], stack := [], finished := [] } st hinv0 rfl hv
  exact ⟨hpkg.1.2.2.2.2, hpkg.1.2.2.1, hpkg.2.2.2⟩

/-! ### Kahn-loop bookkeeping lemmas -/

theorem containsKey_iff_mem (l : List (String × α)) (k : String) :
    containsKey l k = true ↔ k ∈ keysOf l := by
  cases hl : lookupA l k with
  | none => simp [containsKey, hl, (lookupA_eq_none_iff l k).mp hl]
  | some v => simp [containsKey, hl, lookupA_isSome_mem l k v hl]

theorem mem_keys_lookupA (l : List (String × α)) (k : String) (h : k ∈ keysOf l) :
    ∃ v, lookupA l k = some v := by
  cases hl : lookupA l k with
  | none => exact absurd h ((lookupA_eq_none_iff l k).mp hl)
  | some v => exact ⟨v, rfl⟩

theorem keysOf_setA_present (l : List (String × α)) (k : String) (v : α)
    (h : k ∈ keysOf l) : keysOf (setA l k v) = keysOf l := by
  induction l with
  | nil => cases h
  | cons p rest ih =>
    by_cases hp : p.1 = k
    · simp [setA, hp, keysOf]
    · have hr : k ∈ keysOf rest := by
        rcases List.mem_cons.mp h with hh | hh
        · exact absurd hh.symm hp
        · exact hh
      simp only [setA, if_neg hp, keysOf, List.map_cons]
      rw [show (setA rest k v).map Prod.fst = keysOf (setA rest k v) from rfl, ih hr]
      rfl

theorem keysOf_decStep (i2 : List (String × Int)) (dep : String) :
    keysOf (decStep i2 dep) = keysOf i2 := by
  unfold decStep
  by_cases h : containsKey i2 dep
  · rw [if_pos h]
    exact keysOf_setA_present i2 dep _ ((containsKey_iff_mem i2 dep).mp h)
  · rw [if_neg h]

/-- Effect of the decrement fold over a dependent list. -/
theorem foldl_decStep_lookup (ds : List String) :
    ∀ ind : List (String × Int),
    keysOf (ds.foldl decStep ind) = keysOf ind ∧
    (∀ tid, containsKey ind tid = true →
      lookupD (ds.foldl decStep ind) tid 0 = lookupD ind tid 0 - (ds.count tid : Int)) ∧
    (∀ tid, containsKey ind tid = false →
      lookupA (ds.foldl decStep ind) tid = lookupA ind tid) := by
  induction ds with
  | nil =>
    intro ind
    refine ⟨rfl, ?_, ?_⟩
    · intro tid _
      simp
    · intro tid _
      rfl
  | cons dep ds ih =>
    intro ind
    rw [List.foldl_cons]
    have hkeys1 : keysOf (decStep ind dep) = keysOf ind := keysOf_decStep ind dep
    have hih := ih (decStep ind dep)
    refine ⟨hih.1.trans hkeys1, ?_, ?_⟩
    · intro tid hc
      have hc1 : containsKey (decStep ind dep) tid = true := by
        rw [containsKey_iff_mem, hkeys1]
        exact (containsKey_iff_mem ind tid).mp hc
      rw [hih.2.1 tid hc1]
      by_cases htd : tid = dep
      · subst htd
        have hstep : lookupD (decStep ind tid) tid 0 = lookupD ind tid 0 - 1 := by
          unfold decStep
          rw [if_pos hc]
          simp [lookupD, lookupA_setA]
        have hcnt : (tid :: ds).count tid = ds.count tid + 1 := by
          simp [List.count_cons]
        rw [hstep, hcnt]
        push_cast
        ring
      · have hstep : lookupD (decStep ind dep) tid 0 = lookupD ind tid 0 := by
          unfold decStep
          by_cases h2 : containsKey ind dep
          · rw [if_pos h2]
            simp [lookupD, lookupA_setA, htd]
          · rw [if_neg h2]
        rw [hstep]
        have hcnt : (dep :: ds).count tid = ds.count tid := by
          rw [List.count_cons]
          simp [Ne.symm htd]
        rw [hcnt]
    · intro tid hc
      have hc1 : containsKey (decStep ind dep) tid = false := by
        cases h2 : containsKey (decStep ind dep) tid
        · rfl
        · rw [containsKey_iff_mem, hkeys1, ← containsKey_iff_mem] at h2
          rw [h2] at hc
          cases hc
      rw [hih.2.2 tid hc1]
      unfold decStep
      by_cases h2 : containsKey ind dep
      · rw [if_pos h2]
        have htd : tid ≠ dep := by
          intro he
          rw [he, h2] at hc
          cases hc
        exact lookupA_setA_other ind dep tid _ htd
      · rw [if_neg h2]

theorem filter_length_split (p q s : String → Bool)
    (hs : ∀ x, s x = (p x || q x)) (hpq : ∀ x, p x = true → q x = false) :
    ∀ ds : List String, (ds.filter s).length = (ds.filter p).length + (ds.filter q).length := by
  intro ds
  induction ds with
  | nil => rfl
  | cons x ds ih =>
    cases hp : p x with
    | true =>
      have hq : q x = false := hpq x hp
      have hsx : s x = true := by rw [hs x, hp]; rfl
      simp [List.filter_cons, hp, hq, hsx]
      omega
    | false =>
      cases hq : q x with
      | true =>
        have hsx : s x = true := by rw [hs x, hp, hq]; rfl
        simp [List.filter_cons, hp, hq, hsx]
        omega
      | false =>
        have hsx : s x = false := by rw [hs x, hp, hq]; rfl
        simp [List.filter_cons, hp, hq, hsx]
        exact ih

theorem sum_count_eq_filter_length (L : List String) (hL : L.Nodup) :
    ∀ ds : List String,
    (L.map (fun l => ds.count l)).sum = (ds.filter (fun x => x ∈ L)).length := by
  induction L with
  | nil =>
    intro ds
    simp
  | cons l L ih =>
    intro ds
    have hnd := List.nodup_cons.mp hL
    have hsplit := filter_length_split (fun x => x == l) (fun x => decide (x ∈ L))
      (fun x => decide (x ∈ l :: L)) ?_ ?_ ds
    · rw [List.map_cons, List.sum_cons, ih hnd.2 ds]
      have hcnt : ds.count l = (ds.filter (fun x => x == l)).length := by
        simp [List.count, List.countP_eq_length_filter]
      rw [hcnt]
      exact hsplit.symm
    · intro x
      cases hx : x == l with
      | true =>
        have : x = l := by simpa using hx
        subst this
        simp
      | false =>
        have hne : x ≠ l := by simpa using hx
        simp [hne]
    · intro x hx
      have : x = l := by simpa using hx
      subst this
      simpa using hnd.1

/-- Number of prerequisites of `tid` still inside the remaining set. -/
def remCount (g : DepGraph) (R : List String) (tid : String) : Nat :=
  ((depsOf g tid).filter (fun p => p ∈ R)).length

theorem remCount_split (g : DepGraph) (R L : List String) (tid : String)
    (hsub : ∀ l ∈ L, l ∈ R) :
    remCount g R tid
      = remCount g (R.filter (fun x => x ∉ L)) tid
        + ((depsOf g tid).filter (fun p => p ∈ L)).length := by
  unfold remCount
  refine filter_length_split (fun x => decide (x ∈ R.filter (fun y => y ∉ L)))
    (fun x => decide (x ∈ L)) (fun x => decide (x ∈ R)) ?_ ?_ (depsOf g tid)
  · intro x
    by_cases hxL : x ∈ L
    · simp [hxL, hsub x hxL]
    · by_cases hxR : x ∈ R
      · simp [hxL, hxR, List.mem_filter]
      · simp [hxL, hxR, List.mem_filter]
  · intro x hx
    simp only [decide_eq_true_eq, List.mem_filter, decide_not] at hx
    simpa using hx.2

/-- Effect of decrementing through a whole level. -/
theorem foldl_decDeps_lookup (g : DepGraph) (L : List String) :
    ∀ ind : List (String × Int),
    keysOf (L.foldl (decDeps g) ind) = keysOf ind ∧
    ∀ tid, containsKey ind tid = true →
      lookupD (L.foldl (decDeps g) ind) tid 0
        = lookupD ind tid 0 - ((L.map (fun l => (succsOf g l).count tid)).sum : Int) := by
  induction L with
  | nil =>
    intro ind
    refine ⟨rfl, ?_⟩
    intro tid _
    simp
  | cons l L ih =>
    intro ind
    rw [List.foldl_cons]
    have hstep := foldl_decStep_lookup (succsOf g l) ind
    have hih := ih (decDeps g ind l)
    have hkeys : keysOf (decDeps g ind l) = keysOf ind := hstep.1
    refine ⟨hih.1.trans hkeys, ?_⟩
    intro tid hc
    have hc1 : containsKey (decDeps g ind l) tid = true := by
      rw [containsKey_iff_mem, hkeys, ← containsKey_iff_mem]
      exact hc
    rw [hih.2 tid hc1]
    have : lookupD (decDeps g ind l) tid 0
        = lookupD ind tid 0 - ((succsOf g l).count tid : Int) :=
      hstep.2.1 tid hc
    rw [this, List.map_cons, List.sum_cons]
    push_cast
    ring

/-- Invariant of the Kahn while-loop. -/
def KahnInv (g : DepGraph) (R : List String) (ind : List (String × Int)) : Prop :=
  (∀ x ∈ R, x ∈ nodeIds g) ∧ R.Nodup ∧ keysOf ind = nodeIds g ∧
  (∀ tid ∈ nodeIds g, lookupD ind tid 0 = (remCount g R tid : Int))

theorem keysOf_initInDeg (g : DepGraph) : keysOf (initInDeg g) = nodeIds g := by
  simp [keysOf, initInDeg, nodeIds, List.map_map, Function.comp]

theorem lookupA_map_snd (f : TaskNode → Int) (ns : List (String × TaskNode))
    (tid : String) :
    lookupA (ns.map (fun p => (p.1, f p.2))) tid = (lookupA ns tid).map f := by
  induction ns with
  | nil => rfl
  | cons p rest ih =>
    by_cases hp : p.1 = tid
    · simp [lookupA, List.find?, hp]
    · simp only [List.map_cons]
      simp only [lookupA, List.find?] at ih ⊢
      simp only [decide_eq_false hp]
      exact ih

theorem lookupA_initInDeg (g : DepGraph) (tid : String) :
    lookupA (initInDeg g) tid
      = (lookupA g.nodes tid).map (fun n => (n.dependencies.length : Int)) :=
  lookupA_map_snd (fun n => (n.dependencies.length : Int)) g.nodes tid

/-- The invariant holds at loop entry. -/
theorem kahnInv_init (g : DepGraph)
    (H1 : (keysOf g.nodes).Nodup)
    (H3 : ∀ d ∈ nodeIds g, ∀ p ∈ depsOf g d, p ∈ keysOf g.edges ∧ p ∈ nodeIds g) :
    KahnInv g (nodeIds g) (initInDeg g) := by
  refine ⟨fun x hx => hx, H1, keysOf_initInDeg g, ?_⟩
  intro tid htid
  obtain ⟨n, hn⟩ := mem_keys_lookupA g.nodes tid htid
  have hdeps : depsOf g tid = n.dependencies := by
    unfold depsOf
    rw [hn]
  have hfull : (depsOf g tid).filter (fun p => p ∈ nodeIds g) = depsOf g tid := by
    refine List.filter_eq_self.mpr ?_
    intro p hp
    exact decide_eq_true ((H3 tid htid p hp).2)
  unfold lookupD remCount
  rw [lookupA_initInDeg g tid, hn, hfull, hdeps]
  rfl

/-- Each decrement through node l removes from tid exactly the multiplicity
of l among tid-s dependencies (edge table and dependency lists agree). -/
theorem succ_count_eq_dep_count (g : DepGraph) (tid l : String)
    (htid : tid ∈ nodeIds g)
    (H3 : ∀ d ∈ nodeIds g, ∀ p ∈ depsOf g d, p ∈ keysOf g.edges ∧ p ∈ nodeIds g)
    (H4 : ∀ p ∈ keysOf g.edges, ∀ d ∈ nodeIds g,
      (succsOf g p).count d = (depsOf g d).count p) :
    (succsOf g l).count tid = (depsOf g tid).count l := by
  by_cases hle : l ∈ keysOf g.edges
  · exact H4 l hle tid htid
  · have hsucc : succsOf g l = [] := by
      unfold succsOf lookupD
      rw [(lookupA_eq_none_iff g.edges l).mpr hle]
      rfl
    have hdep : l ∉ depsOf g tid := fun hmem => hle (H3 tid htid l hmem).1
    rw [hsucc, List.count_nil, List.count_eq_zero.mpr hdep]

/-- The Kahn invariant is preserved by one loop iteration. -/
theorem kahnInv_step (g : DepGraph) (R : List String) (ind : List (String × Int))
    (H3 : ∀ d ∈ nodeIds g, ∀ p ∈ depsOf g d, p ∈ keysOf g.edges ∧ p ∈ nodeIds g)
    (H4 : ∀ p ∈ keysOf g.edges, ∀ d ∈ nodeIds g,
      (succsOf g p).count d = (depsOf g d).count p)
    (hinv : KahnInv g R ind) :
    KahnInv g
      (R.filter (fun a => a ∉ R.filter (fun tid => lookupD ind tid 0 = 0)))
      ((R.filter (fun tid => lookupD ind tid 0 = 0)).foldl (decDeps g) ind) := by
  obtain ⟨hsub, hnd, hkeys, hval⟩ := hinv
  set L := R.filter (fun tid => lookupD ind tid 0 = 0) with hL
  refine ⟨?_, hnd.filter _, (foldl_decDeps_lookup g L ind).1.trans hkeys, ?_⟩
  · intro x hx
    exact hsub x (List.mem_filter.mp hx).1
  · intro tid htid
    have hck : containsKey ind tid = true := by
      rw [containsKey_iff_mem, hkeys]
      exact htid
    have h1 := (foldl_decDeps_lookup g L ind).2 tid hck
    have hmapeq : L.map (fun l => (succsOf g l).count tid)
        = L.map (fun l => (depsOf g tid).count l) :=
      List.map_congr_left (fun l _ => succ_count_eq_dep_count g tid l htid H3 H4)
    have hLnd : L.Nodup := hnd.filter _
    have hsum := sum_count_eq_filter_length L hLnd (depsOf g tid)
    have hsplit := remCount_split g R L tid (fun l hl => (List.mem_filter.mp hl).1)
    rw [h1, hval tid htid, hmapeq, hsum]
    omega

/-- A nonempty list has an element of maximal rank. -/
theorem exists_max_idx (f : String → Nat) :
    ∀ R : List String, R ≠ [] → ∃ m, m ∈ R ∧ ∀ x ∈ R, f x ≤ f m := by
  intro R
  induction R with
  | nil => intro h; exact absurd rfl h
  | cons a R ih =>
    intro _
    by_cases hR : R = []
    · subst hR
      refine ⟨a, List.mem_singleton_self a, ?_⟩
      intro x hx
      rcases List.mem_singleton.mp hx with rfl
      exact Nat.le_refl _
    · obtain ⟨m, hm, hmax⟩ := ih hR
      by_cases ham : f a ≤ f m
      · refine ⟨m, List.mem_cons_of_mem a hm, ?_⟩
        intro x hx
        rcases List.mem_cons.mp hx with rfl | hx
        · exact ham
        · exact hmax x hx
      · refine ⟨a, List.mem_cons_self a R, ?_⟩
        intro x hx
        rcases List.mem_cons.mp hx with rfl | hx
        · exact Nat.le_refl _
        · exact Nat.le_trans (hmax x hx) (Nat.le_of_not_le ham)

/-- Under a finish ranking, a nonempty remaining set always holds a node of
in-degree zero: the loop can never raise on a closed ranked graph. -/
theorem kahn_progress (g : DepGraph) (fin : List String) (R : List String)
    (ind : List (String × Int))
    (hrank : RankOK g fin)
    (hfin : ∀ x ∈ nodeIds g, x ∈ fin)
    (H3 : ∀ d ∈ nodeIds g, ∀ p ∈ depsOf g d, p ∈ keysOf g.edges ∧ p ∈ nodeIds g)
    (H4 : ∀ p ∈ keysOf g.edges, ∀ d ∈ nodeIds g,
      (succsOf g p).count d = (depsOf g d).count p)
    (hinv : KahnInv g R ind) (hne : R ≠ []) :
    ∃ tid, tid ∈ R ∧ lookupD ind tid 0 = 0 := by
  obtain ⟨hsub, _hnd, _hkeys, hval⟩ := hinv
  obtain ⟨m, hm, hmax⟩ := exists_max_idx (fun x => fin.indexOf x) R hne
  refine ⟨m, hm, ?_⟩
  have hmn : m ∈ nodeIds g := hsub m hm
  rw [hval m hmn]
  suffices h0 : remCount g R m = 0 by
    rw [h0]
    rfl
  by_contra hpos
  obtain ⟨p, hpf⟩ : ∃ p, p ∈ (depsOf g m).filter (fun q => q ∈ R) := by
    have hpos2 : ((depsOf g m).filter (fun q => q ∈ R)).length ≠ 0 := hpos
    exact List.exists_mem_of_ne_nil _ (List.length_pos.mp (Nat.pos_of_ne_zero hpos2))
  have hpd : p ∈ depsOf g m := (List.mem_filter.mp hpf).1
  have hpR : p ∈ R := by
    have h2 := (List.mem_filter.mp hpf).2
    simpa using h2
  obtain ⟨hpe, hpn⟩ := H3 m hmn p hpd
  have hcnt : (succsOf g p).count m = (depsOf g m).count p := H4 p hpe m hmn
  have hpm : 0 < (depsOf g m).count p := List.count_pos_iff.mpr hpd
  have hms : m ∈ succsOf g p := List.count_pos_iff.mp (hcnt ▸ hpm)
  have hpfin : p ∈ fin := hfin p hpn
  obtain ⟨_, hlt⟩ := hrank p hpfin m hms
  have hle : fin.indexOf p ≤ fin.indexOf m := hmax p hpR
  omega

/-- The Kahn loop, run with enough fuel from an invariant state whose nodes
all carry a finish rank, succeeds and its levels partition the remaining
set. -/
theorem kahnLoop_ok (g : DepGraph) (fin : List String)
    (hrank : RankOK g fin)
    (hfin : ∀ x ∈ nodeIds g, x ∈ fin)
    (H3 : ∀ d ∈ nodeIds g, ∀ p ∈ depsOf g d, p ∈ keysOf g.edges ∧ p ∈ nodeIds g)
    (H4 : ∀ p ∈ keysOf g.edges, ∀ d ∈ nodeIds g,
      (succsOf g p).count d = (depsOf g d).count p) :
    ∀ fuel : Nat, ∀ R : List String, ∀ ind : List (String × Int),
      ∀ acc : List (List String),
      KahnInv g R ind → R.length ≤ fuel →
      ∃ levels, kahnLoop g fuel R ind acc = Except.ok (acc ++ levels)
        ∧ levels.flatten.Perm R := by
  intro fuel
  induction fuel with
  | zero =>
    intro R ind acc _hinv hlen
    have hR : R = [] := List.length_eq_zero.mp (Nat.le_zero.mp hlen)
    subst hR
    exact ⟨[], by simp [kahnLoop], List.Perm.refl []⟩
  | succ fuel ih =>
    intro R ind acc hinv hlen
    by_cases hR : R = []
    · subst hR
      exact ⟨[], by simp [kahnLoop], List.Perm.refl []⟩
    · obtain ⟨tid0, htid0, hz0⟩ := kahn_progress g fin R ind hrank hfin H3 H4 hinv hR
      set L := R.filter (fun tid => lookupD ind tid 0 = 0) with hL
      have hLne : L ≠ [] := by
        intro hnil
        have hmem : tid0 ∈ L := by
          rw [hL]
          exact List.mem_filter.mpr ⟨htid0, by simp [hz0]⟩
        rw [hnil] at hmem
        cases hmem
      have hRb : ¬ (R.isEmpty = true) := by
        cases R with
        | nil => exact absurd rfl hR
        | cons a as => simp
      have hLb : ¬ (L.isEmpty = true) := by
        cases hc : L with
        | nil => exact absurd hc hLne
        | cons a as => simp [hc]
      have hstep : kahnLoop g (fuel + 1) R ind acc
          = kahnLoop g fuel (R.filter (fun tid => tid ∉ L))
              (L.foldl (decDeps g) ind) (acc ++ [L]) := by
        conv_lhs => simp only [kahnLoop]
        rw [if_neg hRb, ← hL, if_neg hLb]
      have hinv2 := kahnInv_step g R ind H3 H4 hinv
      rw [← hL] at hinv2
      have hRfeq : R.filter (fun tid => tid ∉ L)
          = R.filter (fun x => !(decide (lookupD ind x 0 = 0))) := by
        apply List.filter_congr
        intro x hx
        by_cases hz : lookupD ind x 0 = 0
        · have hxL : x ∈ L := by
            rw [hL]
            exact List.mem_filter.mpr ⟨hx, by simp [hz]⟩
          simp [hxL, hz]
        · have hxL : x ∉ L := by
            rw [hL]
            intro hmem
            exact hz (by simpa using (List.mem_filter.mp hmem).2)
          simp [hxL, hz]
      have hperm : (L ++ R.filter (fun tid => tid ∉ L)).Perm R := by
        rw [hRfeq, hL]
        exact List.filter_append_perm _ R
      have hlen2 : (R.filter (fun tid => tid ∉ L)).length ≤ fuel := by
        have hlenperm : L.length + (R.filter (fun tid => tid ∉ L)).length = R.length := by
          have hq := hperm.length_eq
          simpa using hq
        have hLpos : 0 < L.length := by
          cases hc : L with
          | nil => exact absurd hc hLne
          | cons a as => simp [hc]
        omega
      obtain ⟨levels2, hrun, hp2⟩ := ih (R.filter (fun tid => tid ∉ L))
        (L.foldl (decDeps g) ind) (acc ++ [L]) hinv2 hlen2
      refine ⟨L :: levels2, ?_, ?_⟩
      · rw [hstep, hrun]
        simp
      · have hfl : (L :: levels2).flatten = L ++ levels2.flatten := by simp
        rw [hfl]
        exact (List.Perm.append_left L hp2).trans hperm

/-- Scenario A of the spec: schema first, then two parallel API/UI tasks. -/
def c8N1 : TaskNode :=
  { task_id := "t1", title := "Create database schema", agent_type := "backend",
    dependencies := [] }

def c8N2 : TaskNode :=
  { task_id := "t2", title := "Build API endpoints", agent_type := "backend",
    dependencies := ["t1"] }

def c8N3 : TaskNode :=
  { task_id := "t3", title := "Build UI components", agent_type := "frontend",
    dependencies := ["t1"] }

def c8G : DepGraph := buildGraph [c8N1, c8N2, c8N3]

/-- On a graph with duplicate-free node ids whose stored dependency lists
are mirrored by the edge table and reference only nodes present in the
graph, a no-cycle verdict from validate_acyclic guarantees that
get_execution_order returns levels whose concatenation is a permutation of
the node ids, and a cycle verdict makes get_execution_order raise. -/
theorem executionOrder_of_wf (g : DepGraph)
    (H1 : (keysOf g.nodes).Nodup)
    (H3 : ∀ d ∈ nodeIds g, ∀ p ∈ depsOf g d, p ∈ keysOf g.edges ∧ p ∈ nodeIds g)
    (H4 : ∀ p ∈ keysOf g.edges, ∀ d ∈ nodeIds g,
      (succsOf g p).count d = (depsOf g d).count p) :
    ((validateAcyclic g).1 = true →
      ∃ levels, getExecutionOrder g = Except.ok levels
        ∧ levels.flatten.Perm (nodeIds g))
    ∧ ((validateAcyclic g).1 = false →
      ∃ msg, getExecutionOrder g = Except.error msg) := by
  constructor
  · intro hv
    obtain ⟨st, hst⟩ := validateAcyclic_true_aux g hv
    obtain ⟨hrank, _hndfin, hcov⟩ := validate_finished g st hst
    have hinv0 := kahnInv_init g H1 H3
    obtain ⟨levels, hrun, hperm⟩ := kahnLoop_ok g st.finished hrank hcov H3 H4
      (nodeIds g).length (nodeIds g) (initInDeg g) [] hinv0 (Nat.le_refl _)
    refine ⟨levels, ?_, hperm⟩
    have hv2 : validateAcyclic g = (true, none) := by
      unfold validateAcyclic
      rw [hst]
    have hgo : getExecutionOrder g
        = kahnLoop g (nodeIds g).length (nodeIds g) (initInDeg g) [] := by
      unfold getExecutionOrder
      rw [hv2]
    rw [hgo, hrun]
    simp
  · intro hv
    have hvv : validateAcyclic g = (false, (validateAcyclic g).2) := by
      rw [← hv]
    unfold getExecutionOrder
    rw [hvv]
    exact ⟨_, rfl⟩

/-! ### buildGraph bridge: well-formed task lists give well-formed graphs -/

theorem keysOf_appendAt (l : List (String × List α)) (k : String) (v : α) :
    keysOf (appendAt l k v) = keysOf l := by
  induction l with
  | nil => rfl
  | cons p rest ih =>
    by_cases hp : p.1 = k
    · simp only [appendAt, List.map_cons, if_pos hp, keysOf] at ih ⊢
      simp [ih]
    · simp only [appendAt, List.map_cons, if_neg hp, keysOf] at ih ⊢
      simp [ih]

theorem lookupA_appendAt (l : List (String × List α)) (k : String) (v : α)
    (t : String) :
    lookupA (appendAt l k v) t
      = if t = k then (lookupA l t).map (fun xs => xs ++ [v])
        else lookupA l t := by
  induction l with
  | nil =>
    by_cases htk : t = k
    · simp [appendAt, lookupA, List.find?, htk]
    · simp [appendAt, lookupA, List.find?, htk]
  | cons p rest ih =>
    by_cases hpk : p.1 = k
    · by_cases hpt : p.1 = t
      · have htk : t = k := hpt ▸ hpk
        simp [appendAt, lookupA, List.find?, hpk, hpt, htk]
      · simp only [appendAt, List.map_cons, if_pos hpk]
        simp only [lookupA, List.find?] at ih ⊢
        simp only [decide_eq_false hpt]
        simpa [appendAt] using ih
    · by_cases hpt : p.1 = t
      · have htk : ¬ t = k := fun hh => hpk (hpt.trans hh)
        simp [appendAt, lookupA, List.find?, hpk, hpt, htk]
      · simp only [appendAt, List.map_cons, if_neg hpk]
        simp only [lookupA, List.find?] at ih ⊢
        simp only [decide_eq_false hpt]
        simpa [appendAt] using ih

theorem lookupA_append_single (es : List (String × α)) (k : String) (xs : α)
    (t : String) :
    lookupA (es ++ [(k, xs)]) t
      = match lookupA es t with
        | some v => some v
        | none => if t = k then some xs else none := by
  induction es with
  | nil =>
    by_cases htk : t = k
    · simp [lookupA, List.find?, htk]
    · have hkt : ¬ k = t := fun h => htk h.symm
      simp [lookupA, List.find?, htk, hkt]
  | cons p rest ih =>
    by_cases hpt : p.1 = t
    · simp [lookupA, List.find?, hpt]
    · simp only [List.cons_append]
      simp only [lookupA, List.find?] at ih ⊢
      simp only [decide_eq_false hpt]
      exact ih

/-- The per-dependency edge update inside add_node (dependency_graph.py
lines 74-78): append the new node id to the dependency-s adjacency list,
creating the entry when missing. -/
def edgeAdd (tid : String) (es : List (String × List String)) (dep : String) :
    List (String × List String) :=
  if containsKey es dep then appendAt es dep tid else es ++ [(dep, [tid])]

theorem addNode_edges (g : DepGraph) (n : TaskNode) :
    (addNode g n).edges
      = n.dependencies.foldl (edgeAdd n.task_id)
          (if containsKey g.edges n.task_id then g.edges
           else g.edges ++ [(n.task_id, [])]) := rfl

theorem addNode_nodes (g : DepGraph) (n : TaskNode) :
    (addNode g n).nodes
      = if containsKey g.nodes n.task_id then setA g.nodes n.task_id n
        else g.nodes ++ [(n.task_id, n)] := rfl

theorem addNode_nodes_fresh (g : DepGraph) (n : TaskNode)
    (h : n.task_id ∉ keysOf g.nodes) :
    (addNode g n).nodes = g.nodes ++ [(n.task_id, n)] := by
  have hc : containsKey g.nodes n.task_id = false := (containsKey_false_iff _ _).mpr h
  rw [addNode_nodes, hc]
  simp

theorem count_cons_eq (a b : String) (l : List String) :
    (b :: l).count a = l.count a + (if a = b then 1 else 0) := by
  by_cases h : a = b
  · simp [List.count_cons, h]
  · simp [List.count_cons, h]

theorem count_edgeAdd (tid : String) (es : List (String × List String))
    (dep t d : String) :
    (lookupD (edgeAdd tid es dep) t []).count d
      = (lookupD es t []).count d + (if t = dep ∧ d = tid then 1 else 0) := by
  unfold edgeAdd
  by_cases hc : containsKey es dep
  · rw [if_pos hc]
    unfold lookupD
    rw [lookupA_appendAt]
    by_cases htd : t = dep
    · subst htd
      obtain ⟨v, hv⟩ : ∃ v, lookupA es t = some v := by
        unfold containsKey at hc
        cases hl : lookupA es t with
        | none => rw [hl] at hc; exact absurd hc (by simp)
        | some v => exact ⟨v, rfl⟩
      rw [if_pos rfl, hv]
      by_cases hdt : d = tid
      · subst hdt
        simp [List.count_append, List.count_cons]
      · simp [List.count_append, List.count_cons, hdt, Ne.symm hdt]
    · rw [if_neg htd]
      simp [htd]
  · rw [if_neg hc]
    unfold lookupD
    rw [lookupA_append_single]
    by_cases htd : t = dep
    · subst htd
      have hnone : lookupA es t = none := by
        unfold containsKey at hc
        cases hl : lookupA es t with
        | none => rfl
        | some v => rw [hl] at hc; simp at hc
      rw [hnone]
      by_cases hdt : d = tid
      · subst hdt
        simp [List.count_cons]
      · simp [List.count_cons, hdt, Ne.symm hdt]
    · cases hl : lookupA es t with
      | some v => simp [htd]
      | none => simp [htd]

theorem keys_edgeAdd_super (tid : String) (es : List (String × List String))
    (dep : String) :
    (∀ x ∈ keysOf es, x ∈ keysOf (edgeAdd tid es dep))
    ∧ dep ∈ keysOf (edgeAdd tid es dep) := by
  unfold edgeAdd
  by_cases hc : containsKey es dep
  · rw [if_pos hc, keysOf_appendAt]
    exact ⟨fun x hx => hx, (containsKey_iff_mem es dep).mp hc⟩
  · rw [if_neg hc]
    have hk : keysOf (es ++ [(dep, [tid])]) = keysOf es ++ [dep] := by
      unfold keysOf
      rw [List.map_append]
      rfl
    rw [hk]
    exact ⟨fun x hx => List.mem_append_left _ hx,
      List.mem_append_right _ (List.mem_singleton_self dep)⟩

/-- Folding the edge update over a dependency list: counts grow by the
multiplicity of the key among the dependencies, and all keys survive. -/
theorem foldl_edgeAdd (tid : String) (deps : List String) :
    ∀ es : List (String × List String),
    (∀ t d, (lookupD (deps.foldl (edgeAdd tid) es) t []).count d
        = (lookupD es t []).count d + (if d = tid then deps.count t else 0))
    ∧ (∀ x ∈ keysOf es, x ∈ keysOf (deps.foldl (edgeAdd tid) es))
    ∧ (∀ x ∈ deps, x ∈ keysOf (deps.foldl (edgeAdd tid) es)) := by
  induction deps with
  | nil =>
    intro es
    refine ⟨fun t d => by simp, fun x hx => hx, fun x hx => absurd hx (List.not_mem_nil x)⟩
  | cons dep deps ih =>
    intro es
    rw [List.foldl_cons]
    obtain ⟨ihc, ihk, ihd⟩ := ih (edgeAdd tid es dep)
    obtain ⟨hks, hkd⟩ := keys_edgeAdd_super tid es dep
    refine ⟨?_, fun x hx => ihk x (hks x hx), ?_⟩
    · intro t d
      rw [ihc t d, count_edgeAdd, count_cons_eq]
      by_cases hdt : d = tid
      · subst hdt
        by_cases htd : t = dep
        · simp [htd]
          omega
        · simp [htd]
      · simp [hdt]
    · intro x hx
      rcases List.mem_cons.mp hx with rfl | hx
      · exact ihk x hkd
      · exact ihd x hx

theorem addNode_edge_count (g : DepGraph) (n : TaskNode) (t d : String) :
    (lookupD (addNode g n).edges t []).count d
      = (lookupD g.edges t []).count d
        + (if d = n.task_id then n.dependencies.count t else 0) := by
  rw [addNode_edges]
  have h0 : (lookupD (if containsKey g.edges n.task_id then g.edges
      else g.edges ++ [(n.task_id, [])]) t []).count d
      = (lookupD g.edges t []).count d := by
    by_cases hc : containsKey g.edges n.task_id
    · rw [if_pos hc]
    · rw [if_neg hc]
      unfold lookupD
      rw [lookupA_append_single]
      cases hl : lookupA g.edges t with
      | some v => simp
      | none =>
        by_cases ht : t = n.task_id
        · simp [ht]
        · simp [ht]
  rw [(foldl_edgeAdd n.task_id n.dependencies _).1 t d, h0]

theorem addNode_keys_super (g : DepGraph) (n : TaskNode) :
    (∀ x ∈ keysOf g.edges, x ∈ keysOf (addNode g n).edges)
    ∧ n.task_id ∈ keysOf (addNode g n).edges
    ∧ (∀ dp ∈ n.dependencies, dp ∈ keysOf (addNode g n).edges) := by
  rw [addNode_edges]
  obtain ⟨_, hk, hd⟩ := foldl_edgeAdd n.task_id n.dependencies
    (if containsKey g.edges n.task_id then g.edges
     else g.edges ++ [(n.task_id, [])])
  have hsup0 : ∀ x ∈ keysOf g.edges, x ∈ keysOf (if containsKey g.edges n.task_id
      then g.edges else g.edges ++ [(n.task_id, [])]) := by
    by_cases hcc : containsKey g.edges n.task_id
    · rw [if_pos hcc]
      exact fun x hx => hx
    · rw [if_neg hcc]
      intro x hx
      unfold keysOf at hx ⊢
      rw [List.map_append]
      exact List.mem_append_left _ hx
  have htid0 : n.task_id ∈ keysOf (if containsKey g.edges n.task_id
      then g.edges else g.edges ++ [(n.task_id, [])]) := by
    by_cases hcc : containsKey g.edges n.task_id
    · rw [if_pos hcc]
      exact (containsKey_iff_mem _ _).mp hcc
    · rw [if_neg hcc]
      unfold keysOf
      rw [List.map_append]
      exact List.mem_append_right _ (by simp)
  exact ⟨fun x hx => hk x (hsup0 x hx), hk _ htid0, hd⟩

/-- Proof-side ghost view: the dependency list of the first task carrying a
given id in a task list. -/
def depsOfList (ps : List TaskNode) (d : String) : List String :=
  match ps.find? (fun n => n.task_id = d) with
  | some n => n.dependencies
  | none => []

theorem find?_append_single (ps : List TaskNode) (n : TaskNode)
    (p : TaskNode → Bool) :
    (ps ++ [n]).find? p
      = match ps.find? p with
        | some m => some m
        | none => if p n then some n else none := by
  induction ps with
  | nil =>
    cases hp : p n with
    | true => simp [List.find?, hp]
    | false => simp [List.find?, hp]
  | cons a ps ih =>
    cases hp : p a with
    | true => simp [List.find?, hp]
    | false =>
      simp only [List.cons_append, List.find?, hp]
      exact ih

theorem depsOfList_append (ps : List TaskNode) (n : TaskNode) (d t : String)
    (hfresh : n.task_id ∉ ps.map TaskNode.task_id) :
    (depsOfList (ps ++ [n]) d).count t
      = (depsOfList ps d).count t
        + (if d = n.task_id then n.dependencies.count t else 0) := by
  unfold depsOfList
  rw [find?_append_single]
  cases hf : ps.find? (fun m => decide (m.task_id = d)) with
  | some m =>
    have hm := List.find?_some hf
    have hmem := List.mem_of_find?_eq_some hf
    have hmd : m.task_id = d := by simpa using hm
    by_cases hdn : d = n.task_id
    · have hbad : n.task_id ∈ ps.map TaskNode.task_id := by
        have h2 : m.task_id ∈ ps.map TaskNode.task_id :=
          List.mem_map_of_mem TaskNode.task_id hmem
        rw [hmd, hdn] at h2
        exact h2
      exact absurd hbad hfresh
    · simp [hdn]
  | none =>
    by_cases hdn : d = n.task_id
    · have hpn : (decide (n.task_id = d)) = true := by simp [hdn]
      simp [hpn, hdn]
    · have hpn : (decide (n.task_id = d)) = false := by
        simp
        exact fun h => hdn h.symm
      simp [hpn, hdn]

theorem keysOf_map_node (ps : List TaskNode) :
    keysOf (ps.map (fun n => (n.task_id, n))) = ps.map TaskNode.task_id := by
  simp [keysOf, List.map_map, Function.comp]

theorem lookupA_map_node (ps : List TaskNode) (d : String) :
    lookupA (ps.map (fun n => (n.task_id, n))) d
      = ps.find? (fun n => n.task_id = d) := by
  induction ps with
  | nil => rfl
  | cons a ps ih =>
    by_cases ha : a.task_id = d
    · simp [lookupA, List.find?, ha]
    · simp only [List.map_cons]
      simp only [lookupA, List.find?] at ih ⊢
      simp only [decide_eq_false ha]
      exact ih

/-- Invariant of the graph-building fold: nodes are the processed tasks in
order, the edge table counts mirror the processed dependency lists, and
every processed id and dependency has an edge entry. -/
theorem build_inv (rest : List TaskNode) :
    ∀ (ps : List TaskNode) (g : DepGraph),
    ((ps ++ rest).map TaskNode.task_id).Nodup →
    g.nodes = ps.map (fun n => (n.task_id, n)) →
    (∀ t d, (lookupD g.edges t []).count d = (depsOfList ps d).count t) →
    (∀ n ∈ ps, n.task_id ∈ keysOf g.edges
      ∧ ∀ dp ∈ n.dependencies, dp ∈ keysOf g.edges) →
    (rest.foldl addNode g).nodes = (ps ++ rest).map (fun n => (n.task_id, n))
    ∧ (∀ t d, (lookupD (rest.foldl addNode g).edges t []).count d
        = (depsOfList (ps ++ rest) d).count t)
    ∧ (∀ n ∈ ps ++ rest, n.task_id ∈ keysOf (rest.foldl addNode g).edges
        ∧ ∀ dp ∈ n.dependencies, dp ∈ keysOf (rest.foldl addNode g).edges) := by
  induction rest with
  | nil =>
    intro ps g _ hnodes hcount hkeys
    simp only [List.foldl_nil, List.append_nil]
    exact ⟨hnodes, hcount, hkeys⟩
  | cons n rest ih =>
    intro ps g hnd hnodes hcount hkeys
    rw [List.foldl_cons]
    have hfresh : n.task_id ∉ ps.map TaskNode.task_id := by
      rw [List.map_append] at hnd
      have hdisj := (List.nodup_append.mp hnd).2.2
      intro hmem
      exact hdisj hmem (by simp)
    have hfreshK : n.task_id ∉ keysOf g.nodes := by
      rw [hnodes, keysOf_map_node]
      exact hfresh
    have hnd2 : (((ps ++ [n]) ++ rest).map TaskNode.task_id).Nodup := by
      rw [List.append_assoc]
      simpa using hnd
    have hnodes1 : (addNode g n).nodes = (ps ++ [n]).map (fun m => (m.task_id, m)) := by
      rw [addNode_nodes_fresh g n hfreshK, hnodes, List.map_append]
      rfl
    have hcount1 : ∀ t d, (lookupD (addNode g n).edges t []).count d
        = (depsOfList (ps ++ [n]) d).count t := by
      intro t d
      rw [addNode_edge_count, hcount t d]
      exact (depsOfList_append ps n d t hfresh).symm
    obtain ⟨hsup, htid, hdeps⟩ := addNode_keys_super g n
    have hkeys1 : ∀ m ∈ ps ++ [n], m.task_id ∈ keysOf (addNode g n).edges
        ∧ ∀ dp ∈ m.dependencies, dp ∈ keysOf (addNode g n).edges := by
      intro m hm
      rcases List.mem_append.mp hm with hm | hm
      · obtain ⟨h1, h2⟩ := hkeys m hm
        exact ⟨hsup _ h1, fun dp hdp => hsup _ (h2 dp hdp)⟩
      · rcases List.mem_singleton.mp hm with rfl
        exact ⟨htid, hdeps⟩
    obtain ⟨ha, hb, hc⟩ := ih (ps ++ [n]) (addNode g n) hnd2 hnodes1 hcount1 hkeys1
    have hassoc : (ps ++ [n]) ++ rest = ps ++ n :: rest := by simp
    rw [hassoc] at ha hb hc
    exact ⟨ha, hb, hc⟩

/-- Graphs built by add_node from a duplicate-free task list are
well-formed: ordered node pairs, mirrored edge counts, covered keys. -/
theorem buildGraph_wf (ns : List TaskNode)
    (hids : (ns.map TaskNode.task_id).Nodup) :
    (buildGraph ns).nodes = ns.map (fun n => (n.task_id, n))
    ∧ (∀ t d, (lookupD (buildGraph ns).edges t []).count d
        = (depsOfList ns d).count t)
    ∧ (∀ n ∈ ns, n.task_id ∈ keysOf (buildGraph ns).edges
        ∧ ∀ dp ∈ n.dependencies, dp ∈ keysOf (buildGraph ns).edges) := by
  have hc0 : ∀ t d, (lookupD (({ nodes := [], edges := [] } : DepGraph)).edges t []).count d
      = (depsOfList [] d).count t := fun t d => rfl
  have hk0 : ∀ n ∈ ([] : List TaskNode),
      n.task_id ∈ keysOf (({ nodes := [], edges := [] } : DepGraph)).edges
      ∧ ∀ dp ∈ n.dependencies,
        dp ∈ keysOf (({ nodes := [], edges := [] } : DepGraph)).edges :=
    fun n hn => absurd hn (List.not_mem_nil n)
  have h := build_inv ns [] { nodes := [], edges := [] } (by simpa using hids)
    rfl hc0 hk0
  simpa [buildGraph] using h

theorem buildGraph_ids_nodup (ns : List TaskNode)
    (hids : (ns.map TaskNode.task_id).Nodup) :
    (keysOf (buildGraph ns).nodes).Nodup := by
  rw [(buildGraph_wf ns hids).1, keysOf_map_node]
  exact hids

theorem buildGraph_depsOf (ns : List TaskNode)
    (hids : (ns.map TaskNode.task_id).Nodup) (d : String) :
    depsOf (buildGraph ns) d = depsOfList ns d := by
  unfold depsOf depsOfList
  rw [(buildGraph_wf ns hids).1, lookupA_map_node]

theorem buildGraph_nodeIds (ns : List TaskNode)
    (hids : (ns.map TaskNode.task_id).Nodup) :
    nodeIds (buildGraph ns) = ns.map TaskNode.task_id := by
  unfold nodeIds
  rw [(buildGraph_wf ns hids).1]
  exact keysOf_map_node ns

theorem buildGraph_H4 (ns : List TaskNode)
    (hids : (ns.map TaskNode.task_id).Nodup) :
    ∀ p ∈ keysOf (buildGraph ns).edges, ∀ d ∈ nodeIds (buildGraph ns),
      (succsOf (buildGraph ns) p).count d = (depsOf (buildGraph ns) d).count p := by
  intro p _ d _
  unfold succsOf
  rw [(buildGraph_wf ns hids).2.1 p d, buildGraph_depsOf ns hids d]

theorem buildGraph_H3 (ns : List TaskNode)
    (hids : (ns.map TaskNode.task_id).Nodup)
    (hclosed : ∀ n ∈ ns, ∀ dp ∈ n.dependencies, dp ∈ ns.map TaskNode.task_id) :
    ∀ d ∈ nodeIds (buildGraph ns), ∀ p ∈ depsOf (buildGraph ns) d,
      p ∈ keysOf (buildGraph ns).edges ∧ p ∈ nodeIds (buildGraph ns) := by
  intro d _ p hp
  rw [buildGraph_depsOf ns hids d] at hp
  unfold depsOfList at hp
  cases hf : ns.find? (fun n => decide (n.task_id = d)) with
  | none =>
    rw [hf] at hp
    have hp2 : p ∈ ([] : List String) := hp
    cases hp2
  | some m =>
    rw [hf] at hp
    have hp2 : p ∈ m.dependencies := hp
    have hmem : m ∈ ns := List.mem_of_find?_eq_some hf
    refine ⟨((buildGraph_wf ns hids).2.2 m hmem).2 p hp2, ?_⟩
    rw [buildGraph_nodeIds ns hids]
    exact hclosed m hmem p hp2

/-- C8 (corrected): for every graph built by add_node from tasks with
duplicate-free ids whose dependencies all reference tasks of the list, a
no-cycle verdict from validate_acyclic guarantees that get_execution_order
returns levels whose concatenation is a permutation of the node ids (every
node in exactly one level), while a cycle verdict makes it raise.  The
closed-dependency restriction is necessary: C8_counterexample shows a
single ghost dependency passes validate_acyclic yet makes
get_execution_order raise instead of returning levels. -/
theorem C8_execution_order (ns : List TaskNode)
    (hids : (ns.map TaskNode.task_id).Nodup)
    (hclosed : ∀ n ∈ ns, ∀ dp ∈ n.dependencies, dp ∈ ns.map TaskNode.task_id) :
    ((validateAcyclic (buildGraph ns)).1 = true →
      ∃ levels, getExecutionOrder (buildGraph ns) = Except.ok levels
        ∧ levels.flatten.Perm (nodeIds (buildGraph ns)))
    ∧ ((validateAcyclic (buildGraph ns)).1 = false →
      ∃ msg, getExecutionOrder (buildGraph ns) = Except.error msg) :=
  executionOrder_of_wf (buildGraph ns) (buildGraph_ids_nodup ns hids)
    (buildGraph_H3 ns hids hclosed) (buildGraph_H4 ns hids)

/-- The scenario-A task list (schema, then API and UI both depending on
it) has distinct ids and closed dependencies, its graph is reported
acyclic, and get_execution_order indeed returns a level partition of the
three tasks. -/
theorem C8_execution_order_witness :
    (([c8N1, c8N2, c8N3].map TaskNode.task_id).Nodup)
    ∧ (∀ n ∈ [c8N1, c8N2, c8N3], ∀ dp ∈ n.dependencies,
        dp ∈ [c8N1, c8N2, c8N3].map TaskNode.task_id)
    ∧ (validateAcyclic c8G).1 = true
    ∧ ∃ levels, getExecutionOrder c8G = Except.ok levels
        ∧ levels.flatten.Perm (nodeIds c8G) :=
  ⟨by decide, by decide, by decide,
    (C8_execution_order [c8N1, c8N2, c8N3] (by decide) (by decide)).1 (by decide)⟩

end Orch
